import Mathlib

/-!
Verification of the label-delimited group-path hierarchy implemented in
`aiida/tools/groups/grouppaths.py`.

The Python module presents a flat collection of labelled records ("groups")
as a virtual tree: a label such as `"a/b/c"` is interpreted as a path of
segments separated by the delimiter `'/'`.  This file embeds the data model
and the operations of that module shallowly in Lean:

* Python strings are embedded as `List Char` (`Str`), so that `str.split`,
  `str.join`, `in`, `startswith` and `endswith` become executable Lean
  functions with provable equations;
* `GroupPath` is a structure holding the validated path string, the parsed
  segment list, the optional `type_string` filter and the
  `warn_invalid_child` flag, exactly the four attributes set by
  `GroupPath.__init__`;
* the backing store (`orm.Group` records reachable through the query
  builder) is embedded as a plain list of `Record`s, and the query used by
  `GroupPath.children` / `GroupPath.group` is embedded as list filtering;
* generators (`children`, `walk`) are embedded as functions returning the
  list of yielded values, `walk` with an explicit fuel argument since its
  recursion depth is bounded by the longest stored label;
* Python list aliasing (needed for the `path_list` copy property) is
  embedded with a tiny addressed heap of lists.
-/

/-- A Python string, embedded as its list of characters. -/
abbrev Str := List Char

/-- Convert a Lean string literal to the embedded string type. -/
def str (s : String) : Str := s.data

/-- The error raised by `GroupPath._validate_path` (class `InvalidPath`).
The two constructors record which of the two `raise` statements fired. -/
inductive InvalidPath where
  | duplicateDelim
  | startEndDelim
  deriving DecidableEq, Repr

/-- `hasDD s` is true iff `s` contains two consecutive delimiter characters,
i.e. the Python test `self._delimiter * 2 in path` for the delimiter `'/'`. -/
def hasDD : Str → Bool
  | a :: b :: rest => (a == '/' && b == '/') || hasDD (b :: rest)
  | _ => false

/-- Python `path.split('/')`: split on every occurrence of the delimiter,
keeping empty pieces (`''.split('/') == ['']`, `'//'.split('/') == ['','','']`). -/
def splitDelim : Str → List Str
  | [] => [[]]
  | c :: rest =>
    if c = '/' then [] :: splitDelim rest
    else
      match splitDelim rest with
      | [] => [[c]]
      | s :: ss => (c :: s) :: ss

/-- Python `'/'.join(segs)`. -/
def joinDelim : List Str → Str
  | [] => []
  | [s] => s
  | s :: rest => s ++ '/' :: joinDelim rest

/-- `GroupPath._validate_path`: a path equal to the delimiter alone
normalises to the empty root path; a doubled delimiter, or a leading or
trailing delimiter, raises `InvalidPath`; anything else is returned as is. -/
def validatePath (path : Str) : Except InvalidPath Str :=
  if path = ['/'] then .ok []
  else if hasDD path then .error .duplicateDelim
  else if path.head? = some '/' ∨ path.getLast? = some '/' then .error .startEndDelim
  else .ok path

/-- The state of a `GroupPath` instance: the four attributes assigned by
`GroupPath.__init__` (`_path_string`, `_path_list`, `_type_string`,
`_warn_invalid_child`; `_delimiter` is always `'/'`). -/
structure GroupPath where
  pathString : Str
  pathList : List Str
  typeString : Option Str
  warnInvalidChild : Bool
  deriving DecidableEq, Repr

/-- `GroupPath.__init__`: validate the path, then set
`_path_list = _path_string.split('/') if path else []` — note the truthiness
test is on the **original** constructor argument `path`, not on the
validated string. -/
def mkGroupPath (path : Str) (typeString : Option Str) (warn : Bool) :
    Except InvalidPath GroupPath :=
  match validatePath path with
  | .error e => .error e
  | .ok ps => .ok ⟨ps, if path = [] then [] else splitDelim ps, typeString, warn⟩

/-- `GroupPath.__eq__`: equality of the `(path, type_string)` pairs. -/
def gpEq (a b : GroupPath) : Bool :=
  a.pathString == b.pathString && a.typeString == b.typeString

/-- `GroupPath.__truediv__`: validate the argument, then construct a child
`GroupPath` from `self.path + '/' + path` (or just `path` when `self.path`
is empty), inheriting `type_string` and `warn_invalid_child`. -/
def truediv (self : GroupPath) (path : Str) : Except InvalidPath GroupPath :=
  match validatePath path with
  | .error e => .error e
  | .ok p =>
    mkGroupPath (if self.pathString = [] then p else self.pathString ++ '/' :: p)
      self.typeString self.warnInvalidChild

/-- `GroupPath.__getitem__` delegates to `__truediv__`. -/
def getitem (self : GroupPath) (path : Str) : Except InvalidPath GroupPath :=
  truediv self path

/-- Repeated application of `__truediv__`, one segment at a time, starting
from an already-constructed (or failed) `GroupPath`: `GroupPath("a") / "b" / "c"`. -/
def chainDiv : Except InvalidPath GroupPath → List Str → Except InvalidPath GroupPath
  | e, [] => e
  | .ok g, s :: rest => chainDiv (truediv g s) rest
  | .error e, _ :: _ => .error e

/-- `GroupPath.parent`: `None` at the root, otherwise a `GroupPath` built
from the join of all but the last path component. -/
def parentPath (self : GroupPath) : Option (Except InvalidPath GroupPath) :=
  if self.pathList = [] then none
  else some (mkGroupPath (joinDelim self.pathList.dropLast) self.typeString self.warnInvalidChild)

/-- A backing-store record (`orm.Group`): an exact label plus its
`type_string` column. -/
structure Record where
  label : Str
  typeString : Option Str
  deriving DecidableEq, Repr

/-- The label projection of the query issued by `GroupPath.children` /
`GroupPath.is_virtual`: all records, filtered by
`{'type_string': self.type_string}` when `type_string` is not `None`. -/
def queryLabels (store : List Record) (ts : Option Str) : List Str :=
  ((match ts with
    | some t => store.filter (fun r => r.typeString == some t)
    | none => store) : List Record).map Record.label

/-- Errors of `orm.Group.objects.get`. -/
inductive OrmErr where
  | notExistent
  | multipleObjects
  deriving DecidableEq, Repr

/-- `orm.Group.objects.get(**filters)`: the unique record matching the
filters, `NotExistent` if there is none, `MultipleObjectsError` if several. -/
def objectsGet (store : List Record) (f : Record → Bool) : Except OrmErr Record :=
  match store.filter f with
  | [] => .error .notExistent
  | [r] => .ok r
  | _ => .error .multipleObjects

/-- `GroupPath.group`: exactly the source's branch structure — when
`self.type_string is not None` it calls `get(label=self.path)` (no type
filter!), otherwise `get(label=self.path, type_string=self.type_string)`;
`NotExistent` is caught and turned into `None`. -/
def groupProp (store : List Record) (self : GroupPath) : Except OrmErr (Option Record) :=
  let res :=
    if self.typeString.isSome then
      objectsGet store (fun r => r.label == self.pathString)
    else
      objectsGet store (fun r => r.label == self.pathString && r.typeString == self.typeString)
  match res with
  | .ok r => .ok (some r)
  | .error .notExistent => .ok none
  | .error e => .error e

/-- The candidate child path computed by the loop body of
`GroupPath.children` for one queried label: `None` embeds `continue`
(label not deeper than this path, or prefix mismatch), `some s` is the
`path_string` obtained by joining the first `len(self._path_list) + 1`
components of the label. -/
def childCandidate (p : GroupPath) (label : Str) : Option Str :=
  if (splitDelim label).length ≤ p.pathList.length then none
  else if (splitDelim label).take p.pathList.length = p.pathList then
    some (joinDelim ((splitDelim label).take (p.pathList.length + 1)))
  else none

/-- The loop of `GroupPath.children` over the queried labels, carrying the
`yielded` deduplication list.  Returns the list of yielded `GroupPath`
children together with the list of `path_string`s for which a warning was
emitted (an `InvalidPath` during construction is caught; the candidate is
appended to `yielded` before the construction is attempted, exactly as in
the source). -/
def childrenAux (p : GroupPath) : List Str → List Str → List GroupPath × List Str
  | [], _ => ([], [])
  | label :: rest, yielded =>
    match childCandidate p label with
    | none => childrenAux p rest yielded
    | some s =>
      if s ∈ yielded then childrenAux p rest yielded
      else
        match mkGroupPath s p.typeString p.warnInvalidChild with
        | .ok gp =>
          let r := childrenAux p rest (yielded ++ [s])
          (gp :: r.1, r.2)
        | .error _ =>
          let r := childrenAux p rest (yielded ++ [s])
          (r.1, if p.warnInvalidChild then s :: r.2 else r.2)

/-- `GroupPath.children` restricted to an already-queried label list. -/
def childrenOfLabels (labels : List Str) (p : GroupPath) : List GroupPath :=
  (childrenAux p labels []).1

/-- `GroupPath.children`: the generator's yielded values, in order. -/
def childrenOf (store : List Record) (p : GroupPath) : List GroupPath :=
  (childrenAux p (queryLabels store p.typeString) []).1

/-- The warnings emitted while iterating `GroupPath.children`, in order. -/
def childrenWarnings (store : List Record) (p : GroupPath) : List Str :=
  (childrenAux p (queryLabels store p.typeString) []).2

/-- `GroupPath.walk`: for each child yield the child and then, recursively,
its own walk.  The recursion is embedded with explicit fuel; any fuel at
least the segment count of the longest stored label makes the embedding
agree with the Python generator (each level strictly increases the path
length, so the Python recursion is bounded by that count). -/
def walkFuel (store : List Record) : Nat → GroupPath → List GroupPath
  | 0, _ => []
  | n + 1, p => (childrenOf store p).flatMap (fun c => c :: walkFuel store n c)

/-- The segment count of the longest label in a list. -/
def maxSegLen (labels : List Str) : Nat :=
  labels.foldr (fun l m => max (splitDelim l).length m) 0

/-- `REGEX_ATTR = '^[a-zA-Z][\\_a-zA-Z0-9]*$'`, body characters. -/
def isAttrTailChar (c : Char) : Bool :=
  c == '_' || ('a' ≤ c && c ≤ 'z') || ('A' ≤ c && c ≤ 'Z') || ('0' ≤ c && c ≤ '9')

/-- The character-class portion of `REGEX_ATTR`: one ASCII letter followed
by any number of `_`, letters or digits, consuming the whole input. -/
def isAttrCore : Str → Bool
  | [] => false
  | c :: rest => (('a' ≤ c && c ≤ 'z') || ('A' ≤ c && c ≤ 'Z')) && rest.all isAttrTailChar

/-- `REGEX_ATTR.match(s)` as a boolean.  The pattern is anchored by `^`
and `$`, and in CPython (without `re.MULTILINE`) `$` matches at the end
of the string or just before a single trailing newline, so `"a\n"`
matches even though `"a\n\n"` does not. -/
def isAttrName (s : Str) : Bool :=
  isAttrCore s || (s.getLast? == some '\n' && isAttrCore s.dropLast)

/-- A Python `dict` with `Str` keys, embedded as an association list in
insertion order; inserting an existing key overwrites in place. -/
def dictInsert (m : List (Str × GroupPath)) (k : Str) (v : GroupPath) :
    List (Str × GroupPath) :=
  if m.any (fun p => p.1 == k) then m.map (fun p => if p.1 == k then (k, v) else p)
  else m ++ [(k, v)]

/-- Python `dict` lookup. -/
def dictGet (m : List (Str × GroupPath)) (k : Str) : Option GroupPath :=
  (m.find? (fun p => p.1 == k)).map Prod.snd

/-- The state of a `GroupAttr` instance: the wrapped `GroupPath` and the
eagerly built `_attr_to_child` mapping. -/
structure GroupAttr where
  groupPath : GroupPath
  attrToChild : List (Str × GroupPath)
  deriving DecidableEq, Repr

/-- The Python exceptions the attribute navigator can raise. -/
inductive PyExc where
  | attributeError
  | indexError
  deriving DecidableEq, Repr

/-- One step of the dict comprehension in `GroupAttr.__init__` for a
single child `c`: evaluating `c.path_list[-1]` raises `IndexError` when
the child's segment list is empty; otherwise the child is added under its
last segment exactly when `REGEX_ATTR` matches it. -/
def attrStep (m : List (Str × GroupPath)) (c : GroupPath) :
    Except PyExc (List (Str × GroupPath)) :=
  match c.pathList.getLast? with
  | none => .error .indexError
  | some k => .ok (if isAttrName k then dictInsert m k c else m)

/-- The dict comprehension of `GroupAttr.__init__`, child by child; the
first child with an empty segment list aborts the construction with
`IndexError`. -/
def buildAttrDict : List GroupPath → List (Str × GroupPath) →
    Except PyExc (List (Str × GroupPath))
  | [], m => .ok m
  | c :: cs, m =>
    match attrStep m c with
    | .error e => .error e
    | .ok m' => buildAttrDict cs m'

/-- `GroupAttr.__init__`: evaluate `children` once and keep
`{c.path_list[-1]: c for c in children if REGEX_ATTR.match(c.path_list[-1])}`.
The construction raises `IndexError` when some child's `path_list` is
empty — this really happens, e.g. for a store holding the label `"/x"`,
whose one-segment truncation under the root is the empty path. -/
def mkGroupAttr (store : List Record) (gp : GroupPath) : Except PyExc GroupAttr :=
  match buildAttrDict (childrenOf store gp) [] with
  | .ok m => .ok ⟨gp, m⟩
  | .error e => .error e

/-- The total fold that `buildAttrDict` computes when no child has an
empty segment list; a proof-side helper used to state the contents of the
mapping, related to `buildAttrDict` by `buildAttrDict_ok`. -/
def attrStepT (m : List (Str × GroupPath)) (c : GroupPath) : List (Str × GroupPath) :=
  match c.pathList.getLast? with
  | some k => if isAttrName k then dictInsert m k c else m
  | none => m

/-- `GroupAttr.__dir__`: the mapping's keys. -/
def dirList (ga : GroupAttr) : List Str := ga.attrToChild.map Prod.fst

/-- The result of one execution of the body of `GroupAttr.__getattr__`. -/
inductive AttrResult where
  /-- the `attr == 'get_child'` branch: evaluates `self.get_child`,
  which re-enters attribute lookup with the same name -/
  | selfGetChild
  /-- a successful child lookup, wrapped in a freshly constructed `GroupAttr` -/
  | navigator (g : GroupAttr)
  /-- `GroupAttr(child)` itself raised `IndexError` while being built -/
  | indexError
  /-- the `KeyError` branch re-raised as `AttributeError(attr)` -/
  | attrError
  deriving DecidableEq, Repr

/-- The body of `GroupAttr.__getattr__`. -/
def getattrBody (store : List Record) (ga : GroupAttr) (name : Str) : AttrResult :=
  if name = str "get_child" then .selfGetChild
  else
    match dictGet ga.attrToChild name with
    | none => .attrError
    | some child =>
      match mkGroupAttr store child with
      | .ok ga2 => .navigator ga2
      | .error _ => .indexError

/-- The names that Python's default attribute lookup resolves on a
`GroupAttr` instance before falling back to `__getattr__`: the two
instance attributes set in `__init__` and the methods defined on the
class (plus `object` built-ins; none of them is named `get_child`). -/
def gaBuiltinAttr (name : Str) : Bool :=
  [str "_group_path", str "_attr_to_child", str "__init__", str "__repr__",
   str "__call__", str "__dir__", str "__getattr__", str "__dict__",
   str "__class__"].contains name

/-- The value of a full Python attribute access on a `GroupAttr`. -/
inductive PyAttrVal where
  | builtinAttr
  | navigator (g : GroupAttr)
  deriving DecidableEq, Repr

/-- Full Python attribute access `getattr(ga, name)` with fuel: default
lookup first, then the `__getattr__` body; the `get_child` branch returns
`self.get_child`, which is again a full attribute access of the same name
on the same object.  `none` embeds exhaustion of the fuel, i.e. an access
that never produces a value however deep the recursion is allowed to go. -/
def pyGetattr (store : List Record) (ga : GroupAttr) :
    Nat → Str → Option (Except PyExc PyAttrVal)
  | 0, _ => none
  | n + 1, name =>
    if gaBuiltinAttr name then some (.ok .builtinAttr)
    else if name = str "get_child" then pyGetattr store ga n name
    else
      match dictGet ga.attrToChild name with
      | none => some (.error .attributeError)
      | some child =>
        match mkGroupAttr store child with
        | .ok ga2 => some (.ok (.navigator ga2))
        | .error e => some (.error e)

/-- A heap of Python list objects, used to embed the aliasing behaviour of
`GroupPath.path_list`: addresses are allocated in sequence and each holds a
list of strings. -/
structure ListHeap where
  size : Nat
  store : Nat → List Str

/-- Allocate a fresh list object holding `v`. -/
def heapAlloc (h : ListHeap) (v : List Str) : Nat × ListHeap :=
  (h.size, ⟨h.size + 1, fun a => if a = h.size then v else h.store a⟩)

/-- In-place mutation of the list object at address `a`. -/
def heapWrite (h : ListHeap) (a : Nat) (v : List Str) : ListHeap :=
  ⟨h.size, fun b => if b = a then v else h.store b⟩

/-- Read the list object at address `a`. -/
def heapRead (h : ListHeap) (a : Nat) : List Str := h.store a

/-- The heap-level view of a `GroupPath` instance for the `path_list`
property: the address of its private `_path_list` list object (the path
string is an immutable Python `str` and needs no heap address). -/
structure GroupPathObj where
  listAddr : Nat

/-- `GroupPath.path_list`: `return self._path_list[:]` — allocate a fresh
list object holding a copy of the private list and return its address. -/
def pathListProp (h : ListHeap) (o : GroupPathObj) : Nat × ListHeap :=
  heapAlloc h (heapRead h o.listAddr)

/-- Segment lists that arise from valid non-empty path strings: every
segment is non-empty and delimiter-free. -/
def goodSegs (segs : List Str) : Prop := ∀ x ∈ segs, x ≠ [] ∧ ('/' : Char) ∉ x

instance (segs : List Str) : Decidable (goodSegs segs) := by
  unfold goodSegs; infer_instance

/-- Well-formedness of a `GroupPath` instance: the path string is the join
of the segment list and every segment is non-empty and delimiter-free.
Every instance the module builds from a valid input satisfies this (the
single exception, constructing from the bare delimiter `"/"`, is the
subject of the C5 analysis). -/
def WF (p : GroupPath) : Prop :=
  p.pathString = joinDelim p.pathList ∧ goodSegs p.pathList

deriving instance DecidableEq for Except

/-- C4: constructing a `GroupPath` from `"/a"`, `"a/"`, `"/a/"` or `"a//b"`
raises `InvalidPath`, while constructing from `"/"` succeeds and yields the
root path: its path string is empty and it compares equal (under
`__eq__`'s `(path, type_string)` comparison) to the default-constructed
root `GroupPath`. -/
theorem grouppath_c4_invalid_path_rejection :
    (mkGroupPath (str "/a") (some (str "user")) true = .error .startEndDelim) ∧
    (mkGroupPath (str "a/") (some (str "user")) true = .error .startEndDelim) ∧
    (mkGroupPath (str "/a/") (some (str "user")) true = .error .startEndDelim) ∧
    (mkGroupPath (str "a//b") (some (str "user")) true = .error .duplicateDelim) ∧
    ((mkGroupPath (str "/") (some (str "user")) true).map GroupPath.pathString = .ok []) ∧
    ((mkGroupPath (str "/") (some (str "user")) true).map
      (fun g => gpEq g ⟨[], [], some (str "user"), true⟩) = .ok true) := by
  decide

/-- C5 (code bug): evaluating the constructor at the failing input `"/"`.
`_validate_path` normalises `"/"` to the empty root path string, but the
truthiness test `if path` in `__init__` is on the original argument, so the
segment list becomes `''.split('/') == ['']` instead of `[]`; the claimed
invariant "segment list equals the split of the path string when that is
non-empty and `[]` otherwise" fails on this instance. -/
theorem grouppath_c5_slash_breaks_invariant :
    mkGroupPath (str "/") (some (str "user")) true
      = .ok ⟨[], [[]], some (str "user"), true⟩ ∧ [[]] ≠ ([] : List Str) := by
  decide

/-- C1 (code bug): evaluating `GroupPath.group` at the failing input.  The
path `"a"` is constructed with `type_string = "user"` while the store's
only record labelled `"a"` has `type_string = "other"`.  The claim requires
the lookup to be filtered by `"user"` (hence to find nothing and return
`None`), but the source's branch `if self.type_string is not None:
return orm.Group.objects.get(label=self.path)` performs the lookup
without any type filter and returns the `"other"`-typed record. -/
theorem grouppath_c1_group_ignores_type_filter :
    (mkGroupPath (str "a") (some (str "user")) true).map
        (fun p => groupProp [⟨str "a", some (str "other")⟩] p)
      = .ok (.ok (some ⟨str "a", some (str "other")⟩)) := by
  decide

theorem splitDelim_ne_nil (s : Str) : splitDelim s ≠ [] := by
  cases s with
  | nil => simp [splitDelim]
  | cons c rest =>
    simp only [splitDelim]
    split
    · simp
    · cases h : splitDelim rest <;> simp

theorem joinDelim_cons_cons (x y : Str) (r : List Str) :
    joinDelim (x :: y :: r) = x ++ '/' :: joinDelim (y :: r) := rfl

theorem hasDD_cons (a : Char) (t : Str) :
    hasDD (a :: t) = ((t.head? == some '/') && (a == '/') || hasDD t) := by
  cases t with
  | nil => simp [hasDD]
  | cons b r =>
    simp only [hasDD, List.head?]
    cases hb : (b == '/') <;> cases ha : (a == '/') <;> simp [hb, ha]

theorem splitDelim_no_delim (s : Str) : ∀ seg ∈ splitDelim s, '/' ∉ seg := by
  induction s with
  | nil => simp [splitDelim]
  | cons c rest ih =>
    simp only [splitDelim]
    by_cases hc : c = '/'
    · simp only [if_pos hc]
      intro seg hseg
      rcases List.mem_cons.mp hseg with rfl | hm
      · simp
      · exact ih seg hm
    · simp only [if_neg hc]
      cases h : splitDelim rest with
      | nil => exact absurd h (splitDelim_ne_nil rest)
      | cons s0 ss =>
        intro seg hseg
        rcases List.mem_cons.mp hseg with rfl | hm
        · intro hmem
          rcases List.mem_cons.mp hmem with h1 | h2
          · exact hc h1.symm
          · exact ih s0 (h ▸ List.mem_cons_self s0 ss) h2
        · exact ih seg (h ▸ List.mem_cons_of_mem s0 hm)

theorem splitDelim_of_no_delim (s : Str) (hs : '/' ∉ s) : splitDelim s = [s] := by
  induction s with
  | nil => simp [splitDelim]
  | cons c rest ih =>
    have hc : c ≠ '/' := fun h => hs (h ▸ List.mem_cons_self c rest)
    have hrest : '/' ∉ rest := fun h => hs (List.mem_cons_of_mem c h)
    simp only [splitDelim, if_neg hc, ih hrest]

theorem splitDelim_append_delim (x j : Str) (hx : '/' ∉ x) :
    splitDelim (x ++ '/' :: j) = x :: splitDelim j := by
  induction x with
  | nil => simp [splitDelim]
  | cons c x' ih =>
    have hc : c ≠ '/' := fun h => hx (h ▸ List.mem_cons_self c x')
    have hx' : '/' ∉ x' := fun h => hx (List.mem_cons_of_mem c h)
    simp only [List.cons_append, splitDelim, if_neg hc, List.append_eq, ih hx']

theorem splitDelim_joinDelim (segs : List Str) (hne : segs ≠ [])
    (hnd : ∀ x ∈ segs, '/' ∉ x) : splitDelim (joinDelim segs) = segs := by
  induction segs with
  | nil => exact absurd rfl hne
  | cons x rest ih =>
    cases rest with
    | nil => simpa [joinDelim] using splitDelim_of_no_delim x (hnd x (List.mem_cons_self x []))
    | cons y r =>
      rw [joinDelim_cons_cons,
        splitDelim_append_delim x _ (hnd x (List.mem_cons_self x (y :: r))),
        ih (by simp) (fun z hz => hnd z (List.mem_cons_of_mem x hz))]

theorem joinDelim_splitDelim (s : Str) : joinDelim (splitDelim s) = s := by
  induction s with
  | nil => simp [splitDelim, joinDelim]
  | cons c rest ih =>
    simp only [splitDelim]
    by_cases hc : c = '/'
    · simp only [if_pos hc]
      cases h : splitDelim rest with
      | nil => exact absurd h (splitDelim_ne_nil rest)
      | cons a l' =>
        rw [joinDelim_cons_cons]
        rw [h] at ih
        simp [ih, hc]
    · simp only [if_neg hc]
      cases h : splitDelim rest with
      | nil => exact absurd h (splitDelim_ne_nil rest)
      | cons s0 ss =>
        rw [h] at ih
        cases ss with
        | nil => simpa [joinDelim] using congrArg (c :: ·) ih
        | cons z ss' =>
          rw [joinDelim_cons_cons] at ih ⊢
          simpa using congrArg (c :: ·) ih

theorem splitDelim_injective {s t : Str} (h : splitDelim s = splitDelim t) : s = t := by
  have := congrArg joinDelim h
  rwa [joinDelim_splitDelim, joinDelim_splitDelim] at this

theorem hasDD_of_no_delim (s : Str) (hs : '/' ∉ s) : hasDD s = false := by
  induction s with
  | nil => simp [hasDD]
  | cons c rest ih =>
    have hc : c ≠ '/' := fun h => hs (h ▸ List.mem_cons_self c rest)
    have hrest : '/' ∉ rest := fun h => hs (List.mem_cons_of_mem c h)
    rw [hasDD_cons, ih hrest]
    simp [hc]

theorem joinDelim_ne_nil (segs : List Str) (hne : segs ≠ [])
    (h : ∀ x ∈ segs, x ≠ []) : joinDelim segs ≠ [] := by
  cases segs with
  | nil => exact absurd rfl hne
  | cons x rest =>
    cases rest with
    | nil => exact h x (List.mem_cons_self x [])
    | cons y r =>
      rw [joinDelim_cons_cons]
      simp

theorem joinDelim_head? (x : Str) (r : List Str) (hx : x ≠ []) :
    (joinDelim (x :: r)).head? = x.head? := by
  cases r with
  | nil => rfl
  | cons y r' =>
    rw [joinDelim_cons_cons, List.head?_append]
    cases x with
    | nil => exact absurd rfl hx
    | cons c x' => rfl

theorem joinDelim_getLast? (x y : Str) (r : List Str) (hj : joinDelim (y :: r) ≠ []) :
    (joinDelim (x :: y :: r)).getLast? = (joinDelim (y :: r)).getLast? := by
  rw [joinDelim_cons_cons, List.getLast?_append]
  cases h : joinDelim (y :: r) with
  | nil => exact absurd h hj
  | cons d j' =>
    rw [List.getLast?_cons_cons]
    cases hg : (d :: j').getLast? with
    | none => simp [List.getLast?_eq_none_iff] at hg
    | some a => simp


theorem hasDD_append_no_delim (x j : Str) (hx : '/' ∉ x) (hj : hasDD ('/' :: j) = false) :
    hasDD (x ++ '/' :: j) = false := by
  induction x with
  | nil => exact hj
  | cons c x' ih =>
    have hc : c ≠ '/' := fun h => hx (h ▸ List.mem_cons_self c x')
    have hx' : '/' ∉ x' := fun h => hx (List.mem_cons_of_mem c h)
    rw [List.cons_append, hasDD_cons, ih hx']
    simp [hc]

theorem hasDD_joinDelim (segs : List Str) (h : goodSegs segs) :
    hasDD (joinDelim segs) = false := by
  induction segs with
  | nil => simp [joinDelim, hasDD]
  | cons x rest ih =>
    cases rest with
    | nil => exact hasDD_of_no_delim x (h x (List.mem_cons_self x [])).2
    | cons y r =>
      have hgood : goodSegs (y :: r) := fun z hz => h z (List.mem_cons_of_mem x hz)
      have hy : y ≠ [] := (hgood y (List.mem_cons_self y r)).1
      have hynd : '/' ∉ y := (hgood y (List.mem_cons_self y r)).2
      rw [joinDelim_cons_cons]
      apply hasDD_append_no_delim _ _ (h x (List.mem_cons_self x (y :: r))).2
      rw [hasDD_cons, ih hgood]
      have hhead : (joinDelim (y :: r)).head? = y.head? := joinDelim_head? y r hy
      rw [hhead]
      cases hy2 : y with
      | nil => exact absurd hy2 hy
      | cons d y' =>
        have hd : d ≠ '/' := fun hdd => hynd (hy2 ▸ hdd ▸ List.mem_cons_self d y')
        simp [hd]

theorem getLast?_joinDelim_mem (segs : List Str) (hne : segs ≠ [])
    (h : ∀ x ∈ segs, x ≠ []) :
    ∃ x ∈ segs, ∃ a, joinDelim segs ≠ [] ∧ (joinDelim segs).getLast? = some a ∧ a ∈ x := by
  induction segs with
  | nil => exact absurd rfl hne
  | cons x rest ih =>
    cases rest with
    | nil =>
      have hx : x ≠ [] := h x (List.mem_cons_self x [])
      rcases List.exists_mem_of_ne_nil x hx with ⟨a, _⟩
      cases hl : x.getLast? with
      | none => exact absurd (List.getLast?_eq_none_iff.mp hl) hx
      | some b =>
        refine ⟨x, List.mem_cons_self x [], b, hx, hl, ?_⟩
        rcases List.getLast?_eq_some_iff.mp hl with ⟨ys, hys⟩
        simp [hys]
    | cons y r =>
      have hrest : ∀ z ∈ y :: r, z ≠ [] := fun z hz => h z (List.mem_cons_of_mem x hz)
      rcases ih (by simp) hrest with ⟨z, hz, a, hjne, hlast, ha⟩
      refine ⟨z, List.mem_cons_of_mem x hz, a, ?_, ?_, ha⟩
      · rw [joinDelim_cons_cons]; simp
      · rw [joinDelim_getLast? x y r hjne, hlast]

theorem joinDelim_ne_slash (segs : List Str) (hne : segs ≠ []) (h : goodSegs segs) :
    joinDelim segs ≠ ['/'] := by
  cases segs with
  | nil => exact absurd rfl hne
  | cons x rest =>
    cases rest with
    | nil =>
      intro hcontra
      have hx2 : x = ['/'] := by simpa [joinDelim] using hcontra
      exact (h x (List.mem_cons_self x [])).2 (hx2 ▸ List.mem_cons_self '/' [])
    | cons y r =>
      intro hcontra
      have hx : x ≠ [] := (h x (List.mem_cons_self x (y :: r))).1
      have := congrArg List.length hcontra
      rw [joinDelim_cons_cons, List.length_append] at this
      simp only [List.length_cons, List.length_singleton] at this
      cases hx2 : x with
      | nil => exact hx hx2
      | cons c x' => rw [hx2] at this; simp at this; omega

theorem validatePath_joinDelim (segs : List Str) (hne : segs ≠ []) (h : goodSegs segs) :
    validatePath (joinDelim segs) = .ok (joinDelim segs) := by
  have hnempty : ∀ x ∈ segs, x ≠ [] := fun x hx => (h x hx).1
  rcases getLast?_joinDelim_mem segs hne hnempty with ⟨z, hz, a, hjne, hlast, ha⟩
  have hhead : (joinDelim segs).head? ≠ some '/' := by
    cases segs with
    | nil => exact absurd rfl hne
    | cons x rest =>
      have hx : x ≠ [] := (h x (List.mem_cons_self x rest)).1
      rw [joinDelim_head? x rest hx]
      cases hx2 : x with
      | nil => exact absurd hx2 hx
      | cons c x' =>
        have hc : c ≠ '/' :=
          fun hdd => (h x (List.mem_cons_self x rest)).2 (hx2 ▸ hdd ▸ List.mem_cons_self c x')
        simp [hc]
  have hlastne : (joinDelim segs).getLast? ≠ some '/' := by
    rw [hlast]
    intro hcontra
    have : a = '/' := by simpa using hcontra
    exact (h z hz).2 (this ▸ ha)
  unfold validatePath
  rw [if_neg (joinDelim_ne_slash segs hne h), hasDD_joinDelim segs h]
  simp only [Bool.false_eq_true, if_false]
  rw [if_neg (by push_neg; exact ⟨hhead, hlastne⟩)]

theorem splitDelim_head?_empty (s : Str) :
    (splitDelim s).head? = some [] ↔ s = [] ∨ s.head? = some '/' := by
  cases s with
  | nil => simp [splitDelim]
  | cons d r =>
    by_cases hd : d = '/'
    · simp [splitDelim, hd]
    · simp only [splitDelim, if_neg hd]
      cases h : splitDelim r with
      | nil => simp [hd]
      | cons s0 ss => simp [hd]

theorem getLast?_cons_of_ne_nil (c : Char) (rest : Str) (h : rest ≠ []) :
    (c :: rest).getLast? = rest.getLast? := by
  cases rest with
  | nil => exact absurd rfl h
  | cons d r' => exact List.getLast?_cons_cons

theorem empty_mem_splitDelim_tail (s : Str) :
    [] ∈ (splitDelim s).tail → s.getLast? = some '/' ∨ hasDD s = true := by
  induction s with
  | nil => simp [splitDelim]
  | cons c rest ih =>
    intro h
    by_cases hc : c = '/'
    · rw [hc]
      simp only [splitDelim, if_pos hc, List.tail_cons] at h
      cases hsp : splitDelim rest with
      | nil => exact absurd hsp (splitDelim_ne_nil rest)
      | cons s0 ss =>
        rw [hsp] at h
        rcases List.mem_cons.mp h with hhead | htail
        · have : (splitDelim rest).head? = some [] := by rw [hsp, ← hhead]; rfl
          rcases (splitDelim_head?_empty rest).mp this with hrnil | hrhead
          · left; rw [hrnil]; rfl
          · right; rw [hasDD_cons, hrhead]; simp
        · have : [] ∈ (splitDelim rest).tail := by rw [hsp]; exact htail
          rcases ih this with hlast | hdd
          · left
            have hrne : rest ≠ [] := by
              intro hr; rw [hr] at hlast; simp at hlast
            rw [getLast?_cons_of_ne_nil _ _ hrne]; exact hlast
          · right; rw [hasDD_cons, hdd]; simp
    · simp only [splitDelim, if_neg hc] at h
      cases hsp : splitDelim rest with
      | nil => exact absurd hsp (splitDelim_ne_nil rest)
      | cons s0 ss =>
        rw [hsp] at h
        simp only [List.tail_cons] at h
        have hrne : rest ≠ [] := by
          intro hr
          rw [hr] at hsp
          simp [splitDelim] at hsp
          rw [hsp.2] at h
          simp at h
        have : [] ∈ (splitDelim rest).tail := by rw [hsp]; exact h
        rcases ih this with hlast | hdd
        · left; rw [getLast?_cons_of_ne_nil _ _ hrne]; exact hlast
        · right; rw [hasDD_cons, hdd]; simp

theorem validatePath_ok_inv {s t : Str} (h : validatePath s = .ok t) :
    (s = ['/'] ∧ t = []) ∨
      (t = s ∧ s ≠ ['/'] ∧ hasDD s = false ∧ s.head? ≠ some '/' ∧ s.getLast? ≠ some '/') := by
  unfold validatePath at h
  split_ifs at h with h1 h2 h3
  · left; exact ⟨h1, (Except.ok.inj h).symm⟩
  · right
    refine ⟨(Except.ok.inj h).symm, h1, ?_, ?_, ?_⟩
    · exact Bool.not_eq_true _ ▸ (by simpa using h2)
    · exact fun hh => h3 (Or.inl hh)
    · exact fun hh => h3 (Or.inr hh)

theorem splitDelim_seg_ne_nil (s : Str) (hs : s ≠ []) (hv : validatePath s = .ok s) :
    ∀ seg ∈ splitDelim s, seg ≠ [] := by
  rcases validatePath_ok_inv hv with ⟨hslash, hnil⟩ | ⟨_, _, hdd, hhead, hlast⟩
  · rw [hslash] at hnil; simp at hnil
  · intro seg hseg hempty
    subst hempty
    cases hsp : splitDelim s with
    | nil => exact absurd hsp (splitDelim_ne_nil s)
    | cons s0 ss =>
      rw [hsp] at hseg
      rcases List.mem_cons.mp hseg with hh | ht
      · have : (splitDelim s).head? = some [] := by rw [hsp, ← hh]; rfl
        rcases (splitDelim_head?_empty s).mp this with h1 | h2
        · exact hs h1
        · exact hhead h2
      · have : [] ∈ (splitDelim s).tail := by rw [hsp]; exact ht
        rcases empty_mem_splitDelim_tail s this with h1 | h2
        · exact hlast h1
        · rw [hdd] at h2; exact Bool.false_ne_true h2

theorem goodSegs_splitDelim (s : Str) (hs : s ≠ []) (hv : validatePath s = .ok s) :
    goodSegs (splitDelim s) :=
  fun seg hseg => ⟨splitDelim_seg_ne_nil s hs hv seg hseg, splitDelim_no_delim s seg hseg⟩

theorem mkGroupPath_ok_inv {s : Str} {ts : Option Str} {w : Bool} {gp : GroupPath}
    (h : mkGroupPath s ts w = .ok gp) :
    validatePath s = .ok gp.pathString ∧ gp.typeString = ts ∧ gp.warnInvalidChild = w ∧
      gp.pathList = (if s = [] then [] else splitDelim gp.pathString) := by
  unfold mkGroupPath at h
  cases hv : validatePath s with
  | error e => rw [hv] at h; cases h
  | ok ps =>
    rw [hv] at h
    have hgp := Except.ok.inj h
    subst hgp
    simp [hv]

theorem mkGroupPath_ok_of_validate (s : Str) (ts : Option Str) (w : Bool)
    (hv : validatePath s = .ok s) :
    mkGroupPath s ts w = .ok ⟨s, if s = [] then [] else splitDelim s, ts, w⟩ := by
  simp [mkGroupPath, hv]

theorem mkGroupPath_ok_pathString {s : Str} {ts : Option Str} {w : Bool} {gp : GroupPath}
    (h : mkGroupPath s ts w = .ok gp) :
    (s ≠ ['/'] ∧ gp.pathString = s) ∨ (s = ['/'] ∧ gp.pathString = []) := by
  rcases mkGroupPath_ok_inv h with ⟨hv, _, _, _⟩
  rcases validatePath_ok_inv hv with ⟨h1, h2⟩ | ⟨h1, h2, _⟩
  · right; exact ⟨h1, h2⟩
  · left; exact ⟨h2, h1⟩

theorem childCandidate_some_iff {p : GroupPath} {label s : Str} :
    childCandidate p label = some s ↔
      p.pathList.length < (splitDelim label).length ∧
        (splitDelim label).take p.pathList.length = p.pathList ∧
        s = joinDelim ((splitDelim label).take (p.pathList.length + 1)) := by
  unfold childCandidate
  split_ifs with h1 h2
  · simp; omega
  · simp only [Option.some.injEq]
    constructor
    · intro h; exact ⟨by omega, h2, h.symm⟩
    · intro ⟨_, _, h⟩; exact h.symm
  · simp only [false_iff]  -- impossible branch: prefix mismatch
    intro ⟨_, hpre, _⟩
    exact h2 hpre

/-- The candidate string computed for one label always splits into exactly
one segment more than the parent's segment list. -/
theorem childCandidate_split_length {p : GroupPath} {label s : Str}
    (h : childCandidate p label = some s) :
    (splitDelim s).length = p.pathList.length + 1 := by
  rcases childCandidate_some_iff.mp h with ⟨hlt, _, rfl⟩
  have hnd : ∀ x ∈ (splitDelim label).take (p.pathList.length + 1), '/' ∉ x :=
    fun x hx => splitDelim_no_delim label x (List.take_subset _ _ hx)
  have hlen : ((splitDelim label).take (p.pathList.length + 1)).length
      = p.pathList.length + 1 := by
    rw [List.length_take]; omega
  have hne : (splitDelim label).take (p.pathList.length + 1) ≠ [] := by
    intro hcontra; rw [hcontra] at hlen; simp at hlen
  rw [splitDelim_joinDelim _ hne hnd, hlen]

/-- For a valid non-empty label, the candidate string is itself a valid
non-empty path whose split is the truncated segment list of the label. -/
theorem childCandidate_valid {p : GroupPath} {label s : Str}
    (hv : validatePath label = .ok label) (hlne : label ≠ [])
    (h : childCandidate p label = some s) :
    s = joinDelim ((splitDelim label).take (p.pathList.length + 1)) ∧
      splitDelim s = (splitDelim label).take (p.pathList.length + 1) ∧
      goodSegs (splitDelim s) ∧ s ≠ [] ∧ validatePath s = .ok s := by
  rcases childCandidate_some_iff.mp h with ⟨hlt, _, hs⟩
  have hgood : goodSegs (splitDelim label) := goodSegs_splitDelim label hlne hv
  have hgoodt : goodSegs ((splitDelim label).take (p.pathList.length + 1)) :=
    fun x hx => hgood x (List.take_subset _ _ hx)
  have hlen : ((splitDelim label).take (p.pathList.length + 1)).length
      = p.pathList.length + 1 := by
    rw [List.length_take]; omega
  have hne : (splitDelim label).take (p.pathList.length + 1) ≠ [] := by
    intro hcontra; rw [hcontra] at hlen; simp at hlen
  have hsplit : splitDelim s = (splitDelim label).take (p.pathList.length + 1) := by
    rw [hs]; exact splitDelim_joinDelim _ hne (fun x hx => (hgoodt x hx).2)
  have hsne : s ≠ [] := by
    rw [hs]; exact joinDelim_ne_nil _ hne (fun x hx => (hgoodt x hx).1)
  have hsv : validatePath s = .ok s := by
    rw [hs]; exact validatePath_joinDelim _ hne hgoodt
  exact ⟨hs, hsplit, hsplit ▸ hgoodt, hsne, hsv⟩

/-- Characterisation of the children yielded by the `children` loop,
generalised over the `yielded` deduplication accumulator. -/
theorem childrenAux_fst_mem (p : GroupPath) (labels : List Str) :
    ∀ (yielded : List Str) (gp : GroupPath),
      gp ∈ (childrenAux p labels yielded).1 ↔
        ∃ s, s ∉ yielded ∧ (∃ l ∈ labels, childCandidate p l = some s) ∧
          mkGroupPath s p.typeString p.warnInvalidChild = .ok gp := by
  induction labels with
  | nil => intro yielded gp; simp [childrenAux]
  | cons label rest ih =>
    intro yielded gp
    simp only [childrenAux]
    cases hc : childCandidate p label with
    | none =>
      rw [ih]
      constructor
      · rintro ⟨s, hy, ⟨l, hl, hcand⟩, hmk⟩
        exact ⟨s, hy, ⟨l, List.mem_cons_of_mem _ hl, hcand⟩, hmk⟩
      · rintro ⟨s, hy, ⟨l, hl, hcand⟩, hmk⟩
        rcases List.mem_cons.mp hl with rfl | hl'
        · rw [hc] at hcand; cases hcand
        · exact ⟨s, hy, ⟨l, hl', hcand⟩, hmk⟩
    | some s0 =>
      by_cases hy0 : s0 ∈ yielded
      · simp only [if_pos hy0]
        rw [ih]
        constructor
        · rintro ⟨s, hy, ⟨l, hl, hcand⟩, hmk⟩
          exact ⟨s, hy, ⟨l, List.mem_cons_of_mem _ hl, hcand⟩, hmk⟩
        · rintro ⟨s, hy, ⟨l, hl, hcand⟩, hmk⟩
          rcases List.mem_cons.mp hl with rfl | hl'
          · rw [hc] at hcand
            have hss : s0 = s := Option.some.inj hcand
            exact absurd (hss ▸ hy0) hy
          · exact ⟨s, hy, ⟨l, hl', hcand⟩, hmk⟩
      · simp only [if_neg hy0]
        cases hmk0 : mkGroupPath s0 p.typeString p.warnInvalidChild with
        | ok gp0 =>
          rw [List.mem_cons, ih]
          constructor
          · rintro (rfl | ⟨s, hy, ⟨l, hl, hcand⟩, hmk⟩)
            · exact ⟨s0, hy0, ⟨label, List.mem_cons_self _ _, hc⟩, hmk0⟩
            · exact ⟨s, fun hmem => hy (List.mem_append_left _ hmem),
                ⟨l, List.mem_cons_of_mem _ hl, hcand⟩, hmk⟩
          · rintro ⟨s, hy, ⟨l, hl, hcand⟩, hmk⟩
            rcases List.mem_cons.mp hl with rfl | hl'
            · rw [hc] at hcand
              have hss : s0 = s := Option.some.inj hcand
              subst hss
              rw [hmk0] at hmk
              exact Or.inl (Except.ok.inj hmk).symm
            · by_cases hss : s = s0
              · subst hss
                rw [hmk0] at hmk
                exact Or.inl (Except.ok.inj hmk).symm
              · refine Or.inr ⟨s, ?_, ⟨l, hl', hcand⟩, hmk⟩
                intro hmem
                rcases List.mem_append.mp hmem with h1 | h2
                · exact hy h1
                · exact hss (List.mem_singleton.mp h2)
        | error e =>
          simp only []
          rw [ih]
          constructor
          · rintro ⟨s, hy, ⟨l, hl, hcand⟩, hmk⟩
            exact ⟨s, fun hmem => hy (List.mem_append_left _ hmem),
              ⟨l, List.mem_cons_of_mem _ hl, hcand⟩, hmk⟩
          · rintro ⟨s, hy, ⟨l, hl, hcand⟩, hmk⟩
            rcases List.mem_cons.mp hl with rfl | hl'
            · rw [hc] at hcand
              have hss : s0 = s := Option.some.inj hcand
              subst hss
              rw [hmk0] at hmk
              cases hmk
            · by_cases hss : s = s0
              · subst hss
                rw [hmk0] at hmk
                cases hmk
              · refine ⟨s, ?_, ⟨l, hl', hcand⟩, hmk⟩
                intro hmem
                rcases List.mem_append.mp hmem with h1 | h2
                · exact hy h1
                · exact hss (List.mem_singleton.mp h2)

/-- Characterisation of the warnings emitted by the `children` loop. -/
theorem childrenAux_snd_mem (p : GroupPath) (labels : List Str) :
    ∀ (yielded : List Str) (s : Str),
      s ∈ (childrenAux p labels yielded).2 ↔
        p.warnInvalidChild = true ∧ s ∉ yielded ∧
          (∃ l ∈ labels, childCandidate p l = some s) ∧
          ∃ e, mkGroupPath s p.typeString p.warnInvalidChild = .error e := by
  induction labels with
  | nil => intro yielded s; simp [childrenAux]
  | cons label rest ih =>
    intro yielded s
    simp only [childrenAux]
    cases hc : childCandidate p label with
    | none =>
      rw [ih]
      constructor
      · rintro ⟨hw, hy, ⟨l, hl, hcand⟩, hmk⟩
        exact ⟨hw, hy, ⟨l, List.mem_cons_of_mem _ hl, hcand⟩, hmk⟩
      · rintro ⟨hw, hy, ⟨l, hl, hcand⟩, hmk⟩
        rcases List.mem_cons.mp hl with rfl | hl'
        · rw [hc] at hcand; cases hcand
        · exact ⟨hw, hy, ⟨l, hl', hcand⟩, hmk⟩
    | some s0 =>
      by_cases hy0 : s0 ∈ yielded
      · simp only [if_pos hy0]
        rw [ih]
        constructor
        · rintro ⟨hw, hy, ⟨l, hl, hcand⟩, hmk⟩
          exact ⟨hw, hy, ⟨l, List.mem_cons_of_mem _ hl, hcand⟩, hmk⟩
        · rintro ⟨hw, hy, ⟨l, hl, hcand⟩, hmk⟩
          rcases List.mem_cons.mp hl with rfl | hl'
          · rw [hc] at hcand
            have hss : s0 = s := Option.some.inj hcand
            exact absurd (hss ▸ hy0) hy
          · exact ⟨hw, hy, ⟨l, hl', hcand⟩, hmk⟩
      · simp only [if_neg hy0]
        cases hmk0 : mkGroupPath s0 p.typeString p.warnInvalidChild with
        | ok gp0 =>
          simp only []
          rw [ih]
          constructor
          · rintro ⟨hw, hy, ⟨l, hl, hcand⟩, hmk⟩
            exact ⟨hw, fun hmem => hy (List.mem_append_left _ hmem),
              ⟨l, List.mem_cons_of_mem _ hl, hcand⟩, hmk⟩
          · rintro ⟨hw, hy, ⟨l, hl, hcand⟩, ⟨e, hmk⟩⟩
            rcases List.mem_cons.mp hl with rfl | hl'
            · rw [hc] at hcand
              have hss : s0 = s := Option.some.inj hcand
              subst hss
              rw [hmk0] at hmk
              cases hmk
            · by_cases hss : s = s0
              · subst hss
                rw [hmk0] at hmk
                cases hmk
              · refine ⟨hw, ?_, ⟨l, hl', hcand⟩, ⟨e, hmk⟩⟩
                intro hmem
                rcases List.mem_append.mp hmem with h1 | h2
                · exact hy h1
                · exact hss (List.mem_singleton.mp h2)
        | error e0 =>
          by_cases hw : p.warnInvalidChild
          · simp only [if_pos hw]
            rw [List.mem_cons, ih]
            constructor
            · rintro (rfl | ⟨hw', hy, ⟨l, hl, hcand⟩, hmk⟩)
              · exact ⟨hw, hy0, ⟨label, List.mem_cons_self _ _, hc⟩, ⟨e0, hmk0⟩⟩
              · exact ⟨hw', fun hmem => hy (List.mem_append_left _ hmem),
                  ⟨l, List.mem_cons_of_mem _ hl, hcand⟩, hmk⟩
            · rintro ⟨hw', hy, ⟨l, hl, hcand⟩, ⟨e, hmk⟩⟩
              rcases List.mem_cons.mp hl with rfl | hl'
              · rw [hc] at hcand
                exact Or.inl (Option.some.inj hcand).symm
              · by_cases hss : s = s0
                · exact Or.inl hss
                · refine Or.inr ⟨hw', ?_, ⟨l, hl', hcand⟩, ⟨e, hmk⟩⟩
                  intro hmem
                  rcases List.mem_append.mp hmem with h1 | h2
                  · exact hy h1
                  · exact hss (List.mem_singleton.mp h2)
          · simp only [if_neg hw]
            rw [ih]
            constructor
            · rintro ⟨hw', _⟩
              exact absurd hw' hw
            · rintro ⟨hw', _⟩
              exact absurd hw' hw

theorem splitDelim_slash : splitDelim ['/'] = [[], []] := by decide

/-- Two distinct candidate strings of the same parent always produce
children with distinct path strings (deduplication by candidate string is
therefore deduplication by child path string). -/
theorem cand_pathString_inj {p : GroupPath} {l1 l2 s1 s2 : Str} {gp1 gp2 : GroupPath}
    (h1 : childCandidate p l1 = some s1) (h2 : childCandidate p l2 = some s2)
    (hm1 : mkGroupPath s1 p.typeString p.warnInvalidChild = .ok gp1)
    (hm2 : mkGroupPath s2 p.typeString p.warnInvalidChild = .ok gp2)
    (hps : gp1.pathString = gp2.pathString) : s1 = s2 := by
  have hl1 := childCandidate_split_length h1
  have hl2 := childCandidate_split_length h2
  rcases mkGroupPath_ok_pathString hm1 with ⟨hn1, he1⟩ | ⟨hs1, he1⟩ <;>
    rcases mkGroupPath_ok_pathString hm2 with ⟨hn2, he2⟩ | ⟨hs2, he2⟩
  · rw [← he1, ← he2]; exact hps
  · exfalso
    have hnil : s1 = [] := by rw [← he1, hps, he2]
    rw [hnil] at hl1
    rw [hs2, splitDelim_slash] at hl2
    have e1 : p.pathList.length + 1 = 1 := by rw [← hl1]; rfl
    have e2 : p.pathList.length + 1 = 2 := by rw [← hl2]; rfl
    omega
  · exfalso
    have hnil : s2 = [] := by rw [← he2, ← hps, he1]
    rw [hnil] at hl2
    rw [hs1, splitDelim_slash] at hl1
    have e1 : p.pathList.length + 1 = 2 := by rw [← hl1]; rfl
    have e2 : p.pathList.length + 1 = 1 := by rw [← hl2]; rfl
    omega
  · rw [hs1, hs2]

/-- The path strings of the children yielded by the loop are pairwise
distinct, whatever the queried labels are. -/
theorem childrenAux_fst_nodup (p : GroupPath) (labels : List Str) :
    ∀ yielded : List Str,
      (((childrenAux p labels yielded).1).map GroupPath.pathString).Nodup := by
  induction labels with
  | nil => intro yielded; simp [childrenAux]
  | cons label rest ih =>
    intro yielded
    simp only [childrenAux]
    cases hc : childCandidate p label with
    | none => exact ih yielded
    | some s0 =>
      by_cases hy0 : s0 ∈ yielded
      · simp only [if_pos hy0]; exact ih yielded
      · simp only [if_neg hy0]
        cases hmk0 : mkGroupPath s0 p.typeString p.warnInvalidChild with
        | error e => exact ih _
        | ok gp0 =>
          rw [List.map_cons, List.nodup_cons]
          refine ⟨?_, ih _⟩
          intro hmem
          rcases List.mem_map.mp hmem with ⟨gp', hgp', hps⟩
          rcases (childrenAux_fst_mem p rest _ gp').mp hgp'
            with ⟨s', hy', ⟨l', hl', hcand'⟩, hmk'⟩
          have hss : s' = s0 := cand_pathString_inj hcand' hc hmk' hmk0 hps
          subst hss
          exact hy' (List.mem_append_right _ (List.mem_singleton.mpr rfl))

/-- String-level characterisation of `children` over a store whose queried
labels are all valid non-empty paths. -/
theorem childrenOf_pathString_iff (store : List Record) (p : GroupPath)
    (hl : ∀ l ∈ queryLabels store p.typeString, validatePath l = .ok l ∧ l ≠ []) :
    ∀ s, s ∈ (childrenOf store p).map GroupPath.pathString ↔
      ∃ l ∈ queryLabels store p.typeString,
        p.pathList.length < (splitDelim l).length ∧
          (splitDelim l).take p.pathList.length = p.pathList ∧
          s = joinDelim ((splitDelim l).take (p.pathList.length + 1)) := by
  intro s
  constructor
  · intro hmem
    rcases List.mem_map.mp hmem with ⟨gp, hgp, hps⟩
    rcases (childrenAux_fst_mem p _ [] gp).mp hgp with ⟨s', _, ⟨l, hlmem, hcand⟩, hmk⟩
    rcases hl l hlmem with ⟨hv, hlne⟩
    rcases childCandidate_valid hv hlne hcand with ⟨_, _, _, hsne, hsv⟩
    have hgps : gp.pathString = s' := by
      rcases mkGroupPath_ok_pathString hmk with ⟨_, h⟩ | ⟨hsl, _⟩
      · exact h
      · rw [hsl] at hsv; simp [validatePath] at hsv
    rcases childCandidate_some_iff.mp hcand with ⟨hlt, hpre, hjoin⟩
    exact ⟨l, hlmem, hlt, hpre, by rw [← hps, hgps, hjoin]⟩
  · rintro ⟨l, hlmem, hlt, hpre, hs⟩
    rcases hl l hlmem with ⟨hv, hlne⟩
    have hcand : childCandidate p l = some s := childCandidate_some_iff.mpr ⟨hlt, hpre, hs⟩
    rcases childCandidate_valid hv hlne hcand with ⟨_, _, _, hsne, hsv⟩
    have hmk := mkGroupPath_ok_of_validate s p.typeString p.warnInvalidChild hsv
    exact List.mem_map.mpr
      ⟨_, (childrenAux_fst_mem p _ [] _).mpr ⟨s, by simp, ⟨l, hlmem, hcand⟩, hmk⟩, rfl⟩

/-- C2: over any store whose queried labels are valid non-empty paths, and
for any well-formed path `P`, the `children` yields are exactly the
distinct one-segment-deeper truncations of the stored labels having `P`'s
segment list as a strict prefix; each appears exactly once and `P` itself
is never yielded as its own child. -/
theorem grouppath_c2_children (store : List Record) (p : GroupPath) (hp : WF p)
    (hl : ∀ l ∈ queryLabels store p.typeString, validatePath l = .ok l ∧ l ≠ []) :
    ((childrenOf store p).map GroupPath.pathString).Nodup ∧
      (∀ s, s ∈ (childrenOf store p).map GroupPath.pathString ↔
        ∃ l ∈ queryLabels store p.typeString,
          p.pathList.length < (splitDelim l).length ∧
            (splitDelim l).take p.pathList.length = p.pathList ∧
            s = joinDelim ((splitDelim l).take (p.pathList.length + 1))) ∧
      p.pathString ∉ (childrenOf store p).map GroupPath.pathString := by
  refine ⟨childrenAux_fst_nodup p _ [], childrenOf_pathString_iff store p hl, ?_⟩
  intro hmem
  rcases (childrenOf_pathString_iff store p hl p.pathString).mp hmem
    with ⟨l, hlmem, hlt, hpre, hs⟩
  rcases hl l hlmem with ⟨hv, hlne⟩
  have hcand : childCandidate p l = some p.pathString :=
    childCandidate_some_iff.mpr ⟨hlt, hpre, hs⟩
  have hlen := childCandidate_split_length hcand
  cases hpl : p.pathList with
  | nil =>
    have hempty : p.pathString = [] := by rw [hp.1, hpl]; rfl
    rcases childCandidate_valid hv hlne hcand with ⟨_, _, _, hsne, _⟩
    exact hsne hempty
  | cons a r =>
    have hsplit : splitDelim p.pathString = p.pathList := by
      rw [hp.1]
      exact splitDelim_joinDelim _ (by rw [hpl]; simp) (fun x hx => (hp.2 x hx).2)
    rw [hsplit, hpl] at hlen
    omega

/-- C2 witness: the theorem applied to the one-record store `["a/b"]` and
the root path. -/
theorem grouppath_c2_children_witness :
    (WF (⟨[], [], none, true⟩ : GroupPath) ∧
      ∀ l ∈ queryLabels [⟨str "a/b", none⟩] (⟨[], [], none, true⟩ : GroupPath).typeString,
        validatePath l = .ok l ∧ l ≠ []) ∧
    (((childrenOf [⟨str "a/b", none⟩] ⟨[], [], none, true⟩).map GroupPath.pathString).Nodup ∧
      (∀ s, s ∈ (childrenOf [⟨str "a/b", none⟩] ⟨[], [], none, true⟩).map GroupPath.pathString ↔
        ∃ l ∈ queryLabels [⟨str "a/b", none⟩] (⟨[], [], none, true⟩ : GroupPath).typeString,
          (⟨[], [], none, true⟩ : GroupPath).pathList.length < (splitDelim l).length ∧
            (splitDelim l).take (⟨[], [], none, true⟩ : GroupPath).pathList.length
              = (⟨[], [], none, true⟩ : GroupPath).pathList ∧
            s = joinDelim ((splitDelim l).take
              ((⟨[], [], none, true⟩ : GroupPath).pathList.length + 1))) ∧
      (⟨[], [], none, true⟩ : GroupPath).pathString
        ∉ (childrenOf [⟨str "a/b", none⟩] ⟨[], [], none, true⟩).map GroupPath.pathString) :=
  ⟨⟨⟨rfl, by simp [goodSegs]⟩, by decide⟩,
    grouppath_c2_children [⟨str "a/b", none⟩] ⟨[], [], none, true⟩
      ⟨rfl, by simp [goodSegs]⟩ (by decide)⟩

/-- C8: for any store and any path with warnings enabled, the children
iteration yields exactly the (deduplicated) candidates whose construction
succeeds — an invalid candidate never stops the enumeration of later
labels — and the warning list contains exactly the candidates whose
construction raised `InvalidPath`. -/
theorem grouppath_c8_invalid_child_skip (store : List Record) (p : GroupPath)
    (hw : p.warnInvalidChild = true) :
    (∀ gp, gp ∈ childrenOf store p ↔
        ∃ s, (∃ l ∈ queryLabels store p.typeString, childCandidate p l = some s) ∧
          mkGroupPath s p.typeString p.warnInvalidChild = .ok gp) ∧
      ∀ s, s ∈ childrenWarnings store p ↔
        (∃ l ∈ queryLabels store p.typeString, childCandidate p l = some s) ∧
          ∃ e, mkGroupPath s p.typeString p.warnInvalidChild = .error e := by
  constructor
  · intro gp
    show gp ∈ (childrenAux p (queryLabels store p.typeString) []).1 ↔ _
    rw [childrenAux_fst_mem]
    constructor
    · rintro ⟨s, _, hx, hy⟩; exact ⟨s, hx, hy⟩
    · rintro ⟨s, hx, hy⟩; exact ⟨s, by simp, hx, hy⟩
  · intro s
    show s ∈ (childrenAux p (queryLabels store p.typeString) []).2 ↔ _
    rw [childrenAux_snd_mem]
    constructor
    · rintro ⟨_, _, hx, hy⟩; exact ⟨hx, hy⟩
    · rintro ⟨hx, hy⟩; exact ⟨hw, by simp, hx, hy⟩

/-- C8 witness: the store holds the malformed label `"a//b"` next to the
valid `"a/c"`; under the parent `"a"` the candidate `"a/"` is skipped with
a warning while `"a/c"` is still yielded. -/
theorem grouppath_c8_invalid_child_skip_witness :
    ((⟨str "a", [str "a"], none, true⟩ : GroupPath).warnInvalidChild = true) ∧
    ((∀ gp, gp ∈ childrenOf [⟨str "a//b", none⟩, ⟨str "a/c", none⟩]
          ⟨str "a", [str "a"], none, true⟩ ↔
        ∃ s, (∃ l ∈ queryLabels [⟨str "a//b", none⟩, ⟨str "a/c", none⟩]
              (⟨str "a", [str "a"], none, true⟩ : GroupPath).typeString,
            childCandidate ⟨str "a", [str "a"], none, true⟩ l = some s) ∧
          mkGroupPath s (⟨str "a", [str "a"], none, true⟩ : GroupPath).typeString
            (⟨str "a", [str "a"], none, true⟩ : GroupPath).warnInvalidChild = .ok gp) ∧
      ∀ s, s ∈ childrenWarnings [⟨str "a//b", none⟩, ⟨str "a/c", none⟩]
          ⟨str "a", [str "a"], none, true⟩ ↔
        (∃ l ∈ queryLabels [⟨str "a//b", none⟩, ⟨str "a/c", none⟩]
            (⟨str "a", [str "a"], none, true⟩ : GroupPath).typeString,
          childCandidate ⟨str "a", [str "a"], none, true⟩ l = some s) ∧
          ∃ e, mkGroupPath s (⟨str "a", [str "a"], none, true⟩ : GroupPath).typeString
            (⟨str "a", [str "a"], none, true⟩ : GroupPath).warnInvalidChild = .error e) :=
  ⟨rfl, grouppath_c8_invalid_child_skip [⟨str "a//b", none⟩, ⟨str "a/c", none⟩]
    ⟨str "a", [str "a"], none, true⟩ rfl⟩

theorem le_maxSegLen (labels : List Str) : ∀ l ∈ labels, (splitDelim l).length ≤ maxSegLen labels := by
  induction labels with
  | nil => simp
  | cons x rest ih =>
    intro l hl
    rcases List.mem_cons.mp hl with rfl | hmem
    · simp only [maxSegLen, List.foldr_cons]
      exact le_max_left _ _
    · simp only [maxSegLen, List.foldr_cons]
      exact le_trans (ih l hmem) (le_max_right _ _)

/-- Everything known about one member of `children` when the queried
labels are valid: it inherits `type_string` and the warning flag, is
well-formed, and its data is the one-segment-deeper truncation of some
queried label. -/
theorem childrenOf_mem_valid {store : List Record} {ts : Option Str} {w : Bool}
    {p : GroupPath} (hts : p.typeString = ts) (hw : p.warnInvalidChild = w)
    (hl : ∀ l ∈ queryLabels store ts, validatePath l = .ok l ∧ l ≠ [])
    {c : GroupPath} (hc : c ∈ childrenOf store p) :
    c.typeString = ts ∧ c.warnInvalidChild = w ∧ WF c ∧
      c.pathList.length = p.pathList.length + 1 ∧
      ∃ l ∈ queryLabels store ts,
        childCandidate p l = some c.pathString ∧
          c.pathList = (splitDelim l).take (p.pathList.length + 1) ∧
          c.pathString = joinDelim ((splitDelim l).take (p.pathList.length + 1)) ∧
          (splitDelim l).take p.pathList.length = p.pathList ∧
          p.pathList.length < (splitDelim l).length := by
  rw [childrenOf, hts] at hc
  rcases (childrenAux_fst_mem p _ [] c).mp hc with ⟨s, _, ⟨l, hlmem, hcand⟩, hmk⟩
  rcases hl l hlmem with ⟨hv, hlne⟩
  rcases childCandidate_valid hv hlne hcand with ⟨hs, hsplit, hgood, hsne, hsv⟩
  have hmk' := mkGroupPath_ok_of_validate s p.typeString p.warnInvalidChild hsv
  rw [hmk'] at hmk
  have hcstruct := Except.ok.inj hmk
  rcases childCandidate_some_iff.mp hcand with ⟨hlt, hpre, _⟩
  have hcps : c.pathString = s := by rw [← hcstruct]
  have hcpl : c.pathList = splitDelim s := by
    rw [← hcstruct]; simp [if_neg hsne]
  constructor
  · rw [← hcstruct]; exact hts
  constructor
  · rw [← hcstruct]; exact hw
  constructor
  · refine ⟨?_, ?_⟩
    · rw [hcps, hcpl, joinDelim_splitDelim]
    · rw [hcpl]; exact hgood
  constructor
  · rw [hcpl, hsplit, List.length_take]; omega
  · refine ⟨l, hlmem, ?_, ?_, ?_, hpre, hlt⟩
    · rw [hcps]; exact hcand
    · rw [hcpl, hsplit]
    · rw [hcps]; exact hs

/-- Conversely, every valid candidate gives rise to a member of
`children` of a fully determined shape. -/
theorem childrenOf_mem_of_cand {store : List Record} {ts : Option Str} {w : Bool}
    {p : GroupPath} (hts : p.typeString = ts) (hw : p.warnInvalidChild = w)
    (hl : ∀ l ∈ queryLabels store ts, validatePath l = .ok l ∧ l ≠ [])
    {l s : Str} (hlmem : l ∈ queryLabels store ts) (hcand : childCandidate p l = some s) :
    (⟨s, splitDelim s, ts, w⟩ : GroupPath) ∈ childrenOf store p ∧
      mkGroupPath s ts w = .ok ⟨s, splitDelim s, ts, w⟩ := by
  rcases hl l hlmem with ⟨hv, hlne⟩
  rcases childCandidate_valid hv hlne hcand with ⟨_, _, _, hsne, hsv⟩
  have hmk := mkGroupPath_ok_of_validate s ts w hsv
  rw [if_neg hsne] at hmk
  constructor
  · rw [childrenOf, hts]
    refine (childrenAux_fst_mem p _ [] _).mpr ⟨s, by simp, ⟨l, hlmem, hcand⟩, ?_⟩
    rw [hts, hw]; exact hmk
  · exact hmk

/-- Membership characterisation of `walk`: with enough fuel relative to
the node's depth, the walk from a well-formed node yields exactly the
nodes built from truncations (of any depth below the node) of queried
labels extending the node's segment list. -/
theorem walkFuel_mem (store : List Record) (ts : Option Str) (w : Bool)
    (hl : ∀ l ∈ queryLabels store ts, validatePath l = .ok l ∧ l ≠ []) :
    ∀ (fuel : Nat) (p : GroupPath), WF p → p.typeString = ts → p.warnInvalidChild = w →
      maxSegLen (queryLabels store ts) ≤ fuel + p.pathList.length →
      ∀ gp, gp ∈ walkFuel store fuel p ↔
        ∃ l ∈ queryLabels store ts, ∃ k,
          p.pathList.length < k ∧ k ≤ (splitDelim l).length ∧
            (splitDelim l).take p.pathList.length = p.pathList ∧
            mkGroupPath (joinDelim ((splitDelim l).take k)) ts w = .ok gp := by
  intro fuel
  induction fuel with
  | zero =>
    intro p _ _ _ hfuel gp
    simp only [walkFuel, List.not_mem_nil, false_iff]
    rintro ⟨l, hlmem, k, hk1, hk2, _, _⟩
    have := le_maxSegLen (queryLabels store ts) l hlmem
    omega
  | succ n ih =>
    intro p hwf hts hw hfuel gp
    simp only [walkFuel, List.mem_flatMap]
    constructor
    · rintro ⟨c, hc, hgp⟩
      rcases childrenOf_mem_valid hts hw hl hc
        with ⟨hcts, hcw, hcwf, hclen, l0, hl0mem, hcand0, hcpl, hcps, hpre0, hlt0⟩
      rcases List.mem_cons.mp hgp with rfl | hsub
      · refine ⟨l0, hl0mem, p.pathList.length + 1, by omega, by omega, hpre0, ?_⟩
        rcases hl l0 hl0mem with ⟨hv0, hl0ne⟩
        rcases childCandidate_valid hv0 hl0ne hcand0 with ⟨_, hsplitc0, _, hsne, hsv⟩
        have hmk := mkGroupPath_ok_of_validate _ ts w hsv
        rw [if_neg hsne] at hmk
        have hpl : gp.pathList = splitDelim gp.pathString := by rw [hcpl, ← hsplitc0]
        have hgpeq : (⟨gp.pathString, splitDelim gp.pathString, ts, w⟩ : GroupPath) = gp := by
          cases gp with
          | mk a b d e =>
            simp only at hpl hcts hcw ⊢
            simp [hpl, hcts, hcw]
        rw [← hcps, hmk, hgpeq]
      · rcases (ih c hcwf hcts hcw (by omega) gp).mp hsub
          with ⟨l, hlmem, k, hk1, hk2, hprec, hmk⟩
        refine ⟨l, hlmem, k, by omega, hk2, ?_, hmk⟩
        have h1 : (splitDelim l).take p.pathList.length
            = ((splitDelim l).take c.pathList.length).take p.pathList.length := by
          rw [List.take_take]
          congr 1
          omega
        rw [h1, hprec, hcpl, List.take_take]
        have h2 : min p.pathList.length (p.pathList.length + 1) = p.pathList.length := by omega
        rw [h2, hpre0]
    · rintro ⟨l, hlmem, k, hk1, hk2, hpre, hmk⟩
      have hcand : childCandidate p l
          = some (joinDelim ((splitDelim l).take (p.pathList.length + 1))) :=
        childCandidate_some_iff.mpr ⟨by omega, hpre, rfl⟩
      rcases childrenOf_mem_of_cand hts hw hl hlmem hcand with ⟨hcmem, hcmk⟩
      rcases hl l hlmem with ⟨hv, hlne⟩
      rcases childCandidate_valid hv hlne hcand with ⟨_, hsplitc, hgoodc, hsnec, hsvc⟩
      by_cases hkeq : k = p.pathList.length + 1
      · refine ⟨_, hcmem, List.mem_cons.mpr (Or.inl ?_)⟩
        subst hkeq
        rw [hcmk] at hmk
        exact (Except.ok.inj hmk).symm
      · refine ⟨_, hcmem, List.mem_cons.mpr (Or.inr ?_)⟩
        have hcwf : WF (⟨joinDelim ((splitDelim l).take (p.pathList.length + 1)),
            splitDelim (joinDelim ((splitDelim l).take (p.pathList.length + 1))), ts, w⟩
              : GroupPath) := by
          refine ⟨?_, ?_⟩
          · simp only [joinDelim_splitDelim]
          · simp only
            rw [hsplitc]
            intro x hx
            exact hgoodc x (by rw [hsplitc]; exact hx)
        refine (ih _ hcwf rfl rfl ?_ gp).mpr ⟨l, hlmem, k, ?_, hk2, ?_, hmk⟩
        · simp only [hsplitc, List.length_take]
          have := le_maxSegLen (queryLabels store ts) l hlmem
          omega
        · simp only [hsplitc, List.length_take]
          omega
        · simp only [hsplitc, List.length_take]
          have hmin : min (p.pathList.length + 1) (splitDelim l).length
              = p.pathList.length + 1 := by omega
          rw [hmin]

theorem WF_split {c : GroupPath} (h : WF c) (hne : c.pathList ≠ []) :
    splitDelim c.pathString = c.pathList := by
  rw [h.1]
  exact splitDelim_joinDelim _ hne (fun x hx => (h.2 x hx).2)

/-- Any depth-`k` truncation of a valid non-empty label is itself a valid
non-empty path splitting back to the truncated segment list. -/
theorem take_join_valid {l : Str} (hv : validatePath l = .ok l) (hlne : l ≠ []) {k : Nat}
    (hk1 : 1 ≤ k) (hk2 : k ≤ (splitDelim l).length) :
    goodSegs ((splitDelim l).take k) ∧
      splitDelim (joinDelim ((splitDelim l).take k)) = (splitDelim l).take k ∧
      joinDelim ((splitDelim l).take k) ≠ [] ∧
      validatePath (joinDelim ((splitDelim l).take k))
        = .ok (joinDelim ((splitDelim l).take k)) ∧
      joinDelim ((splitDelim l).take k) ≠ ['/'] := by
  have hgood : goodSegs (splitDelim l) := goodSegs_splitDelim l hlne hv
  have hgoodt : goodSegs ((splitDelim l).take k) :=
    fun x hx => hgood x (List.take_subset _ _ hx)
  have hlen : ((splitDelim l).take k).length = k := by rw [List.length_take]; omega
  have hne : (splitDelim l).take k ≠ [] := by
    intro hcontra; rw [hcontra] at hlen; simp at hlen; omega
  refine ⟨hgoodt, ?_, ?_, ?_, ?_⟩
  · exact splitDelim_joinDelim _ hne (fun x hx => (hgoodt x hx).2)
  · exact joinDelim_ne_nil _ hne (fun x hx => (hgoodt x hx).1)
  · exact validatePath_joinDelim _ hne hgoodt
  · exact joinDelim_ne_slash _ hne hgoodt

/-- String-level membership characterisation of `walk`. -/
theorem walkFuel_pathString_mem (store : List Record) (ts : Option Str) (w : Bool)
    (hl : ∀ l ∈ queryLabels store ts, validatePath l = .ok l ∧ l ≠ [])
    (fuel : Nat) (p : GroupPath) (hwf : WF p) (hts : p.typeString = ts)
    (hw : p.warnInvalidChild = w)
    (hfuel : maxSegLen (queryLabels store ts) ≤ fuel + p.pathList.length) :
    ∀ s, s ∈ (walkFuel store fuel p).map GroupPath.pathString ↔
      ∃ l ∈ queryLabels store ts, ∃ k,
        p.pathList.length < k ∧ k ≤ (splitDelim l).length ∧
          (splitDelim l).take p.pathList.length = p.pathList ∧
          s = joinDelim ((splitDelim l).take k) := by
  intro s
  constructor
  · intro hmem
    rcases List.mem_map.mp hmem with ⟨gp, hgp, hps⟩
    rcases (walkFuel_mem store ts w hl fuel p hwf hts hw hfuel gp).mp hgp
      with ⟨l, hlmem, k, hk1, hk2, hpre, hmk⟩
    rcases hl l hlmem with ⟨hv, hlne⟩
    rcases take_join_valid hv hlne (by omega : 1 ≤ k) hk2 with ⟨_, _, _, _, hnsl⟩
    refine ⟨l, hlmem, k, hk1, hk2, hpre, ?_⟩
    rcases mkGroupPath_ok_pathString hmk with ⟨_, he⟩ | ⟨hsl, _⟩
    · rw [← hps, he]
    · exact absurd hsl hnsl
  · rintro ⟨l, hlmem, k, hk1, hk2, hpre, rfl⟩
    rcases hl l hlmem with ⟨hv, hlne⟩
    rcases take_join_valid hv hlne (by omega : 1 ≤ k) hk2 with ⟨_, _, hjne, hjv, _⟩
    have hmk := mkGroupPath_ok_of_validate _ ts w hjv
    rw [if_neg hjne] at hmk
    exact List.mem_map.mpr
      ⟨_, (walkFuel_mem store ts w hl fuel p hwf hts hw hfuel _).mpr
        ⟨l, hlmem, k, hk1, hk2, hpre, hmk⟩, rfl⟩

/-- With enough fuel, the walk never yields the same path string twice. -/
theorem walkFuel_pathString_nodup (store : List Record) (ts : Option Str) (w : Bool)
    (hl : ∀ l ∈ queryLabels store ts, validatePath l = .ok l ∧ l ≠ []) :
    ∀ (fuel : Nat) (p : GroupPath), WF p → p.typeString = ts → p.warnInvalidChild = w →
      maxSegLen (queryLabels store ts) ≤ fuel + p.pathList.length →
      ((walkFuel store fuel p).map GroupPath.pathString).Nodup := by
  intro fuel
  induction fuel with
  | zero => intro p _ _ _ _; simp [walkFuel]
  | succ n ih =>
    intro p hwf hts hw hfuel
    have hsig : ∀ c, c ∈ childrenOf store p →
        ∀ s ∈ (c :: walkFuel store n c).map GroupPath.pathString,
          (splitDelim s).take (p.pathList.length + 1) = c.pathList := by
      intro c hc s hs
      rcases childrenOf_mem_valid hts hw hl hc
        with ⟨hcts, hcw, hcwf, hclen, l0, hl0mem, hcand0, hcpl, hcps, hpre0, hlt0⟩
      rcases List.mem_map.mp hs with ⟨gp, hgp, hps⟩
      rcases List.mem_cons.mp hgp with rfl | hsub
      · have hclne : gp.pathList ≠ [] := by
          intro hcontra; rw [hcontra] at hclen; simp at hclen
        rw [← hps, WF_split hcwf hclne, ← hclen]
        exact List.take_of_length_le (le_refl _)
      · have hmem : gp.pathString ∈ (walkFuel store n c).map GroupPath.pathString :=
          List.mem_map.mpr ⟨gp, hsub, rfl⟩
        rcases (walkFuel_pathString_mem store ts w hl n c hcwf hcts hcw (by omega)
            gp.pathString).mp hmem with ⟨l, hlmem, k, hk1, hk2, hprec, hgs⟩
        rcases hl l hlmem with ⟨hv, hlne⟩
        rcases take_join_valid hv hlne (by omega : 1 ≤ k) hk2 with ⟨_, hsplit, _, _, _⟩
        rw [← hps, hgs, hsplit, List.take_take]
        have hmin : min (p.pathList.length + 1) k = p.pathList.length + 1 := by omega
        rw [hmin]
        rw [hclen] at hprec
        exact hprec
    show ((walkFuel store (n + 1) p).map GroupPath.pathString).Nodup
    rw [walkFuel, List.map_flatMap, List.nodup_flatMap]
    constructor
    · intro c hc
      rcases childrenOf_mem_valid hts hw hl hc
        with ⟨hcts, hcw, hcwf, hclen, l0, hl0mem, hcand0, hcpl, hcps, hpre0, hlt0⟩
      rw [List.map_cons, List.nodup_cons]
      constructor
      · intro hmem
        rcases (walkFuel_pathString_mem store ts w hl n c hcwf hcts hcw (by omega)
            c.pathString).mp hmem with ⟨l, hlmem, k, hk1, hk2, hprec, hgs⟩
        rcases hl l hlmem with ⟨hv, hlne⟩
        rcases take_join_valid hv hlne (by omega : 1 ≤ k) hk2 with ⟨_, hsplit, _, _, _⟩
        have h1 : (splitDelim c.pathString).length = c.pathList.length := by
          rw [WF_split hcwf (by intro hcontra; rw [hcontra] at hclen; simp at hclen)]
        have h2 : (splitDelim c.pathString).length = k := by
          rw [hgs, hsplit, List.length_take]; omega
        omega
      · exact ih c hcwf hcts hcw (by omega)
    · have hch : ((childrenOf store p).map GroupPath.pathString).Nodup := by
        rw [childrenOf]
        exact childrenAux_fst_nodup p _ []
      have hpw : (childrenOf store p).Pairwise
          (fun c c' => c.pathString ≠ c'.pathString) := List.pairwise_map.mp hch
      refine List.Pairwise.imp_of_mem ?_ hpw
      intro c c' hcm hcm' hne s hs hs'
      have h1 := hsig c hcm s hs
      have h2 := hsig c' hcm' s hs'
      rcases childrenOf_mem_valid hts hw hl hcm
        with ⟨_, _, hcwf, hclen, _, _, _, _, _, _, _⟩
      rcases childrenOf_mem_valid hts hw hl hcm'
        with ⟨_, _, hcwf', hclen', _, _, _, _, _, _, _⟩
      apply hne
      rw [hcwf.1, hcwf'.1, h1.symm.trans h2]

/-- C3: over any store whose queried labels are valid non-empty paths and
with fuel at least the longest label's depth, `walk` from the root yields
exactly the distinct truncations (at every depth, the full label included)
of the queried labels, each exactly once; the set of yielded path strings
depends only on which labels the backing query returns, not on their
order or multiplicity. -/
theorem grouppath_c3_walk (store : List Record) (ts : Option Str) (w : Bool) (fuel : Nat)
    (hl : ∀ l ∈ queryLabels store ts, validatePath l = .ok l ∧ l ≠ [])
    (hfuel : maxSegLen (queryLabels store ts) ≤ fuel) :
    ((walkFuel store fuel ⟨[], [], ts, w⟩).map GroupPath.pathString).Nodup ∧
      (∀ s, s ∈ (walkFuel store fuel ⟨[], [], ts, w⟩).map GroupPath.pathString ↔
        ∃ l ∈ queryLabels store ts, ∃ k, 1 ≤ k ∧ k ≤ (splitDelim l).length ∧
          s = joinDelim ((splitDelim l).take k)) ∧
      ∀ (store₂ : List Record) (fuel₂ : Nat),
        (∀ l, l ∈ queryLabels store₂ ts ↔ l ∈ queryLabels store ts) →
        maxSegLen (queryLabels store₂ ts) ≤ fuel₂ →
        ∀ s, s ∈ (walkFuel store₂ fuel₂ ⟨[], [], ts, w⟩).map GroupPath.pathString ↔
          s ∈ (walkFuel store fuel ⟨[], [], ts, w⟩).map GroupPath.pathString := by
  have hwf : WF (⟨[], [], ts, w⟩ : GroupPath) :=
    ⟨rfl, fun x hx => absurd hx (List.not_mem_nil x)⟩
  have hmem := walkFuel_pathString_mem store ts w hl fuel ⟨[], [], ts, w⟩ hwf rfl rfl
    (by simpa using hfuel)
  simp only [List.length_nil, List.take_zero] at hmem
  refine ⟨walkFuel_pathString_nodup store ts w hl fuel _ hwf rfl rfl (by simpa using hfuel),
    ?_, ?_⟩
  · intro s
    rw [hmem s]
    constructor
    · rintro ⟨l, hlmem, k, hk1, hk2, _, hs⟩
      exact ⟨l, hlmem, k, by omega, hk2, hs⟩
    · rintro ⟨l, hlmem, k, hk1, hk2, hs⟩
      exact ⟨l, hlmem, k, by omega, hk2, trivial, hs⟩
  · intro store₂ fuel₂ hsame hfuel₂
    have hl₂ : ∀ l ∈ queryLabels store₂ ts, validatePath l = .ok l ∧ l ≠ [] :=
      fun l hlm => hl l ((hsame l).mp hlm)
    have hmem₂ := walkFuel_pathString_mem store₂ ts w hl₂ fuel₂ ⟨[], [], ts, w⟩ hwf rfl rfl
      (by simpa using hfuel₂)
    simp only [List.length_nil, List.take_zero] at hmem₂
    intro s
    rw [hmem s, hmem₂ s]
    constructor
    · rintro ⟨l, hlmem, k, hk⟩
      exact ⟨l, (hsame l).mp hlmem, k, hk⟩
    · rintro ⟨l, hlmem, k, hk⟩
      exact ⟨l, (hsame l).mpr hlmem, k, hk⟩

/-- C3 witness: the theorem applied to the store `["a/b"]` with fuel 2. -/
theorem grouppath_c3_walk_witness :
    ((∀ l ∈ queryLabels [⟨str "a/b", none⟩] none, validatePath l = .ok l ∧ l ≠ []) ∧
      maxSegLen (queryLabels [⟨str "a/b", none⟩] none) ≤ 2) ∧
    (((walkFuel [⟨str "a/b", none⟩] 2 ⟨[], [], none, true⟩).map GroupPath.pathString).Nodup ∧
      (∀ s, s ∈ (walkFuel [⟨str "a/b", none⟩] 2 ⟨[], [], none, true⟩).map GroupPath.pathString ↔
        ∃ l ∈ queryLabels [⟨str "a/b", none⟩] none, ∃ k, 1 ≤ k ∧ k ≤ (splitDelim l).length ∧
          s = joinDelim ((splitDelim l).take k)) ∧
      ∀ (store₂ : List Record) (fuel₂ : Nat),
        (∀ l, l ∈ queryLabels store₂ none ↔ l ∈ queryLabels [⟨str "a/b", none⟩] none) →
        maxSegLen (queryLabels store₂ none) ≤ fuel₂ →
        ∀ s, s ∈ (walkFuel store₂ fuel₂ ⟨[], [], none, true⟩).map GroupPath.pathString ↔
          s ∈ (walkFuel [⟨str "a/b", none⟩] 2 ⟨[], [], none, true⟩).map
            GroupPath.pathString) :=
  ⟨⟨by decide, by decide⟩,
    grouppath_c3_walk [⟨str "a/b", none⟩] none true 2 (by decide) (by decide)⟩

theorem joinDelim_append (xs ys : List Str) (hx : xs ≠ []) (hy : ys ≠ []) :
    joinDelim (xs ++ ys) = joinDelim xs ++ '/' :: joinDelim ys := by
  induction xs with
  | nil => exact absurd rfl hx
  | cons x xs' ih =>
    cases xs' with
    | nil =>
      cases ys with
      | nil => exact absurd rfl hy
      | cons y ys' => rw [List.singleton_append, joinDelim_cons_cons]; rfl
    | cons x2 xs'' =>
      have e1 : (x :: x2 :: xs'') ++ ys = x :: x2 :: (xs'' ++ ys) := by simp
      rw [e1, joinDelim_cons_cons x x2 (xs'' ++ ys), joinDelim_cons_cons x x2 xs'']
      have e2 : joinDelim (x2 :: (xs'' ++ ys)) = joinDelim ((x2 :: xs'') ++ ys) := by
        rw [List.cons_append]
      rw [e2, ih (by simp)]
      simp [List.append_assoc]

theorem truediv_eq {g : GroupPath} {x : Str} (hx : validatePath x = .ok x) :
    truediv g x = mkGroupPath (if g.pathString = [] then x else g.pathString ++ '/' :: x)
      g.typeString g.warnInvalidChild := by
  simp [truediv, hx]

theorem goodSegs_single {x : Str} (h1 : x ≠ []) (h2 : '/' ∉ x) : goodSegs [x] := by
  intro z hz
  rcases List.mem_singleton.mp hz with rfl
  exact ⟨h1, h2⟩

theorem chainDiv_ok (ts : Option Str) (w : Bool) :
    ∀ (rest segs1 : List Str) (g : GroupPath),
      segs1 ≠ [] → goodSegs segs1 → goodSegs rest →
      mkGroupPath (joinDelim segs1) ts w = .ok g →
      chainDiv (.ok g) rest = mkGroupPath (joinDelim (segs1 ++ rest)) ts w := by
  intro rest
  induction rest with
  | nil =>
    intro segs1 g _ _ _ hmk
    rw [List.append_nil]
    simp only [chainDiv]
    exact hmk.symm
  | cons x rest' ih =>
    intro segs1 g h1 hgood1 hgoodr hmk
    have hxgood : x ≠ [] ∧ '/' ∉ x := hgoodr x (List.mem_cons_self x rest')
    have hrgood : goodSegs rest' := fun z hz => hgoodr z (List.mem_cons_of_mem x hz)
    have hv1 : validatePath (joinDelim segs1) = .ok (joinDelim segs1) :=
      validatePath_joinDelim segs1 h1 hgood1
    have hvx : validatePath x = .ok x := by
      have := validatePath_joinDelim [x] (by simp) (goodSegs_single hxgood.1 hxgood.2)
      simpa [joinDelim] using this
    rcases mkGroupPath_ok_inv hmk with ⟨hvg, hgt, hgw, _⟩
    have hgps : g.pathString = joinDelim segs1 := by
      rcases validatePath_ok_inv hvg with ⟨hsl, _⟩ | ⟨heq, _⟩
      · exact absurd hsl (joinDelim_ne_slash segs1 h1 hgood1)
      · exact heq.symm ▸ (Except.ok.inj (hv1.symm.trans hvg)).symm
    have hgne : g.pathString ≠ [] := by
      rw [hgps]
      exact joinDelim_ne_nil segs1 h1 (fun z hz => (hgood1 z hz).1)
    simp only [chainDiv]
    rw [truediv_eq hvx, if_neg hgne, hgps, hgt, hgw]
    have hjoin : joinDelim segs1 ++ '/' :: x = joinDelim (segs1 ++ [x]) := by
      rw [joinDelim_append segs1 [x] h1 (by simp)]
      rfl
    rw [hjoin]
    have hgood1x : goodSegs (segs1 ++ [x]) := by
      intro z hz
      rcases List.mem_append.mp hz with hz1 | hz2
      · exact hgood1 z hz1
      · rcases List.mem_singleton.mp hz2 with rfl
        exact hxgood
    have hv1x : validatePath (joinDelim (segs1 ++ [x]))
        = .ok (joinDelim (segs1 ++ [x])) :=
      validatePath_joinDelim _ (by simp) hgood1x
    have hmk2 := mkGroupPath_ok_of_validate _ ts w hv1x
    rw [hmk2]
    rw [ih (segs1 ++ [x]) _ (by simp) hgood1x hrgood hmk2]
    rw [List.append_assoc]
    rfl

/-- C6: for any non-empty list of valid segments, constructing the full
joined path, appending the segments one at a time with `/`, and indexing a
prefix with the joined remaining suffix all construct the same group path
(so in particular they are equal under `__eq__`'s `(path, type_string)`
comparison, witnessed by `gpEq`). -/
theorem grouppath_c6_roundtrip (s0 : Str) (rest : List Str) (ts : Option Str) (w : Bool)
    (hgood : goodSegs (s0 :: rest)) :
    ∃ g, mkGroupPath (joinDelim (s0 :: rest)) ts w = .ok g ∧
      (∃ g', chainDiv (mkGroupPath s0 ts w) rest = .ok g' ∧ gpEq g g' = true) ∧
      ∀ k, 1 ≤ k → k < (s0 :: rest).length →
        ∃ g'', (mkGroupPath (joinDelim ((s0 :: rest).take k)) ts w).bind
            (fun h => getitem h (joinDelim ((s0 :: rest).drop k))) = .ok g'' ∧
          gpEq g g'' = true := by
  have h0 : s0 ≠ [] ∧ '/' ∉ s0 := hgood s0 (List.mem_cons_self s0 rest)
  have hrgood : goodSegs rest := fun z hz => hgood z (List.mem_cons_of_mem s0 hz)
  have hv : validatePath (joinDelim (s0 :: rest)) = .ok (joinDelim (s0 :: rest)) :=
    validatePath_joinDelim _ (by simp) hgood
  have hmk := mkGroupPath_ok_of_validate _ ts w hv
  refine ⟨_, hmk, ?_, ?_⟩
  · have hv0 : validatePath s0 = .ok s0 := by
      have := validatePath_joinDelim [s0] (by simp) (goodSegs_single h0.1 h0.2)
      simpa [joinDelim] using this
    have hmk0 := mkGroupPath_ok_of_validate s0 ts w hv0
    rw [hmk0]
    have hchain := chainDiv_ok ts w rest [s0] _ (by simp)
      (goodSegs_single h0.1 h0.2) hrgood (by simpa [joinDelim] using hmk0)
    rw [List.singleton_append] at hchain
    rw [hchain, hmk]
    exact ⟨_, rfl, by simp [gpEq]⟩
  · intro k hk1 hk2
    have hgoodt : goodSegs ((s0 :: rest).take k) :=
      fun z hz => hgood z (List.take_subset _ _ hz)
    have hgoodd : goodSegs ((s0 :: rest).drop k) :=
      fun z hz => hgood z (List.drop_subset _ _ hz)
    have htne : (s0 :: rest).take k ≠ [] := by
      intro hcontra
      have h := congrArg List.length hcontra
      rw [List.length_take] at h
      simp only [List.length_nil, List.length_cons] at h
      omega
    have hdne : (s0 :: rest).drop k ≠ [] := by
      intro hcontra
      have h := congrArg List.length hcontra
      rw [List.length_drop] at h
      simp only [List.length_nil, List.length_cons] at h
      simp only [List.length_cons] at hk2
      omega
    have hvt : validatePath (joinDelim ((s0 :: rest).take k))
        = .ok (joinDelim ((s0 :: rest).take k)) :=
      validatePath_joinDelim _ htne hgoodt
    have hvd : validatePath (joinDelim ((s0 :: rest).drop k))
        = .ok (joinDelim ((s0 :: rest).drop k)) :=
      validatePath_joinDelim _ hdne hgoodd
    have hmkt := mkGroupPath_ok_of_validate _ ts w hvt
    rw [hmkt]
    simp only [Except.bind]
    rw [getitem, truediv_eq hvd]
    have hjne : joinDelim ((s0 :: rest).take k) ≠ [] :=
      joinDelim_ne_nil _ htne (fun z hz => (hgoodt z hz).1)
    simp only [if_neg hjne]
    rw [joinDelim_append _ _ htne hdne |>.symm, List.take_append_drop]
    rw [hmk]
    exact ⟨_, rfl, by simp [gpEq]⟩

/-- C6 witness: `GroupPath("a/b/c")`, `GroupPath("a") / "b" / "c"` and
`GroupPath("a")["b/c"]` all agree. -/
theorem grouppath_c6_roundtrip_witness :
    goodSegs [str "a", str "b", str "c"] ∧
    ∃ g, mkGroupPath (joinDelim [str "a", str "b", str "c"]) (some (str "user")) true
        = .ok g ∧
      (∃ g', chainDiv (mkGroupPath (str "a") (some (str "user")) true) [str "b", str "c"]
          = .ok g' ∧ gpEq g g' = true) ∧
      ∀ k, 1 ≤ k → k < ([str "a", str "b", str "c"] : List Str).length →
        ∃ g'', (mkGroupPath (joinDelim (([str "a", str "b", str "c"] : List Str).take k))
              (some (str "user")) true).bind
            (fun h => getitem h (joinDelim (([str "a", str "b", str "c"] : List Str).drop k)))
            = .ok g'' ∧ gpEq g g'' = true :=
  ⟨by decide, grouppath_c6_roundtrip (str "a") [str "b", str "c"]
    (some (str "user")) true (by decide)⟩

theorem find?_key_cons_pos (q : Str × GroupPath) (m : List (Str × GroupPath)) (k : Str)
    (h : (q.1 == k) = true) :
    List.find? (fun r => r.1 == k) (q :: m) = some q :=
  List.find?_cons_of_pos _ h

theorem find?_key_cons_neg (q : Str × GroupPath) (m : List (Str × GroupPath)) (k : Str)
    (h : (q.1 == k) = false) :
    List.find? (fun r => r.1 == k) (q :: m) = List.find? (fun r => r.1 == k) m :=
  List.find?_cons_of_neg _ (by simp [h])

theorem dictGet_map_replace_ne (m : List (Str × GroupPath)) (k k' : Str) (v : GroupPath)
    (hne : k' ≠ k) :
    dictGet (m.map (fun p => if p.1 == k then (k, v) else p)) k' = dictGet m k' := by
  induction m with
  | nil => rfl
  | cons p m' ih =>
    rw [List.map_cons]
    by_cases hp : (p.1 == k) = true
    · rw [if_pos hp]
      unfold dictGet
      have h1 : ((k, v).1 == k') = false := beq_eq_false_iff_ne.mpr (fun h => hne h.symm)
      have h2 : (p.1 == k') = false := by
        refine beq_eq_false_iff_ne.mpr ?_
        intro h; rw [eq_of_beq hp] at h; exact hne h.symm
      rw [find?_key_cons_neg _ _ _ h1, find?_key_cons_neg _ _ _ h2]
      exact ih
    · rw [if_neg hp]
      unfold dictGet
      cases hq : (p.1 == k') with
      | true =>
        rw [find?_key_cons_pos _ _ _ hq, find?_key_cons_pos _ _ _ hq]
      | false =>
        rw [find?_key_cons_neg _ _ _ hq, find?_key_cons_neg _ _ _ hq]
        exact ih

theorem dictGet_insert_self (m : List (Str × GroupPath)) (k : Str) (v : GroupPath) :
    dictGet (dictInsert m k v) k = some v := by
  unfold dictInsert
  split_ifs with hany
  · induction m with
    | nil => simp at hany
    | cons p m' ih =>
      rw [List.map_cons]
      by_cases hp : (p.1 == k) = true
      · rw [if_pos hp]
        unfold dictGet
        rw [find?_key_cons_pos _ _ _ (by simp)]
        rfl
      · rw [if_neg hp]
        simp only [List.any_cons, Bool.or_eq_true] at hany
        rcases hany with h1 | h2
        · exact absurd h1 hp
        · unfold dictGet
          rw [find?_key_cons_neg _ _ _ (by simpa using hp)]
          exact ih h2
  · induction m with
    | nil =>
      unfold dictGet
      rw [List.nil_append, find?_key_cons_pos _ _ _ (by simp)]
      rfl
    | cons p m' ih =>
      simp only [List.any_cons, Bool.or_eq_true, not_or] at hany
      rw [List.cons_append]
      unfold dictGet
      have hp : (p.1 == k) = false := by
        cases h : (p.1 == k) with
        | true => exact absurd h hany.1
        | false => rfl
      rw [find?_key_cons_neg _ _ _ hp]
      exact ih hany.2

theorem dictGet_insert_ne (m : List (Str × GroupPath)) (k k' : Str) (v : GroupPath)
    (hne : k' ≠ k) :
    dictGet (dictInsert m k v) k' = dictGet m k' := by
  unfold dictInsert
  split_ifs with hany
  · exact dictGet_map_replace_ne m k k' v hne
  · unfold dictGet
    rw [List.find?_append]
    have h1 : List.find? (fun p => p.1 == k') [(k, v)] = none := by
      rw [find?_key_cons_neg _ _ _ (beq_eq_false_iff_ne.mpr (fun h => hne h.symm))]
      rfl
    rw [h1, Option.or_none]

theorem attrStepT_get (m : List (Str × GroupPath)) (c : GroupPath) (k : Str) :
    dictGet (attrStepT m c) k =
      if (c.pathList.getLast? == some k) && isAttrName k then some c else dictGet m k := by
  unfold attrStepT
  cases hlast : c.pathList.getLast? with
  | none => simp
  | some k0 =>
    simp only
    by_cases hattr : isAttrName k0 = true
    · rw [if_pos hattr]
      by_cases hk : k = k0
      · subst hk
        rw [dictGet_insert_self]
        simp [hattr]
      · rw [dictGet_insert_ne _ _ _ _ hk]
        have hb : (some k0 == some k) = false := by
          simp only [beq_eq_false_iff_ne]
          intro h
          exact hk (Option.some.inj h).symm
        simp [hb]
    · rw [if_neg hattr]
      by_cases hk : k = k0
      · subst hk
        have hb : isAttrName k = false := by simpa using hattr
        simp [hb]
      · have hb : (some k0 == some k) = false := by
          simp only [beq_eq_false_iff_ne]
          intro h
          exact hk (Option.some.inj h).symm
        simp [hb]

theorem buildDict_get (cs : List GroupPath) :
    ∀ (m : List (Str × GroupPath)) (k : Str),
      dictGet (cs.foldl attrStepT m) k =
        (cs.reverse.find?
          (fun c => (c.pathList.getLast? == some k) && isAttrName k)).or (dictGet m k) := by
  induction cs with
  | nil => intro m k; simp
  | cons c cs' ih =>
    intro m k
    rw [List.foldl_cons, ih (attrStepT m c) k, attrStepT_get]
    rw [List.reverse_cons, List.find?_append]
    cases hf : cs'.reverse.find?
        (fun c => (c.pathList.getLast? == some k) && isAttrName k) with
    | some c0 => simp [Option.or]
    | none =>
      simp only [Option.none_or]
      by_cases hpred : ((c.pathList.getLast? == some k) && isAttrName k) = true
      · rw [if_pos hpred]
        have h1 : List.find?
            (fun c => c.pathList.getLast? == some k && isAttrName k) [c] = some c :=
          List.find?_cons_of_pos _ hpred
        rw [h1]
        rfl
      · rw [if_neg hpred]
        have h1 : List.find?
            (fun c => c.pathList.getLast? == some k && isAttrName k) [c] = none := by
          have h2 := @List.find?_cons_of_neg GroupPath
            (fun c => c.pathList.getLast? == some k && isAttrName k) c [] hpred
          rw [h2]
          rfl
        rw [h1, Option.none_or]

theorem dictGet_none_iff (m : List (Str × GroupPath)) (k : Str) :
    dictGet m k = none ↔ k ∉ m.map Prod.fst := by
  induction m with
  | nil =>
    constructor
    · intro _ h
      exact absurd h (List.not_mem_nil k)
    · intro _
      rfl
  | cons p m' ih =>
    rw [List.map_cons]
    cases hp : (p.1 == k) with
    | true =>
      have hk : p.1 = k := eq_of_beq hp
      constructor
      · intro h
        exfalso
        unfold dictGet at h
        rw [find?_key_cons_pos _ _ _ hp] at h
        exact Option.noConfusion h
      · intro h
        exact absurd (hk ▸ List.mem_cons_self p.1 (m'.map Prod.fst)) h
    | false =>
      constructor
      · intro h hmem
        unfold dictGet at h
        rw [find?_key_cons_neg _ _ _ hp] at h
        rcases List.mem_cons.mp hmem with h1 | h2
        · exact (beq_eq_false_iff_ne.mp hp) h1.symm
        · exact (ih.mp h) h2
      · intro h
        unfold dictGet
        rw [find?_key_cons_neg _ _ _ hp]
        exact ih.mpr (fun h2 => h (List.mem_cons_of_mem p.1 h2))

theorem buildAttrDict_ok (cs : List GroupPath) :
    ∀ m : List (Str × GroupPath), (∀ c ∈ cs, c.pathList ≠ []) →
      buildAttrDict cs m = .ok (cs.foldl attrStepT m) := by
  induction cs with
  | nil => intro m _; rfl
  | cons c cs' ih =>
    intro m hne
    have hc : c.pathList ≠ [] := hne c (List.mem_cons_self c cs')
    cases hlast : c.pathList.getLast? with
    | none => exact absurd (List.getLast?_eq_none_iff.mp hlast) hc
    | some k =>
      have hstep : attrStep m c = .ok (if isAttrName k then dictInsert m k c else m) := by
        unfold attrStep
        rw [hlast]
      have hstepT : attrStepT m c = if isAttrName k then dictInsert m k c else m := by
        unfold attrStepT
        rw [hlast]
      simp only [buildAttrDict, hstep, List.foldl_cons, hstepT]
      exact ih _ (fun z hz => hne z (List.mem_cons_of_mem c hz))

/-- Over a store whose queried labels are valid non-empty paths, every
child's segment list is non-empty, so `GroupAttr.__init__` cannot hit its
`IndexError` and the mapping is the total fold. -/
theorem mkGroupAttr_ok (store : List Record) (gp : GroupPath)
    (hl : ∀ l ∈ queryLabels store gp.typeString, validatePath l = .ok l ∧ l ≠ []) :
    mkGroupAttr store gp = .ok ⟨gp, (childrenOf store gp).foldl attrStepT []⟩ := by
  have hne : ∀ c ∈ childrenOf store gp, c.pathList ≠ [] := by
    intro c hc
    rcases childrenOf_mem_valid rfl rfl hl hc with ⟨_, _, _, hclen, _⟩
    intro hcontra
    rw [hcontra] at hclen
    simp at hclen
  unfold mkGroupAttr
  rw [buildAttrDict_ok _ _ hne]

/-- C7: over any store whose queried labels are valid non-empty paths (so
that `GroupAttr.__init__`'s `c.path_list[-1]` cannot raise `IndexError`),
the navigator construction succeeds and retains exactly the children
whose last path segment matches `REGEX_ATTR`; its name listing contains
exactly those segments; looking up (through `__getattr__`) any other name
raises `AttributeError`, and looking up a retained name returns a
navigator wrapping the matched child. -/
theorem grouppath_c7_attr (store : List Record) (gp : GroupPath)
    (hl : ∀ l ∈ queryLabels store gp.typeString, validatePath l = .ok l ∧ l ≠ []) :
    ∃ ga, mkGroupAttr store gp = .ok ga ∧
      (∀ k, k ∈ dirList ga ↔
        ∃ c ∈ childrenOf store gp, c.pathList.getLast? = some k ∧ isAttrName k = true) ∧
      ∀ name, name ≠ str "get_child" →
        ((getattrBody store ga name = .attrError) ↔ name ∉ dirList ga) ∧
        ∀ c, dictGet ga.attrToChild name = some c →
          (∃ ga2, mkGroupAttr store c = .ok ga2 ∧
            getattrBody store ga name = .navigator ga2) ∧
          c ∈ childrenOf store gp ∧ c.pathList.getLast? = some name ∧
          isAttrName name = true := by
  refine ⟨⟨gp, (childrenOf store gp).foldl attrStepT []⟩, mkGroupAttr_ok store gp hl,
    ?_, ?_⟩ <;>
  · have hget : ∀ k,
        dictGet (⟨gp, (childrenOf store gp).foldl attrStepT []⟩ : GroupAttr).attrToChild k =
        (childrenOf store gp).reverse.find?
          (fun c => (c.pathList.getLast? == some k) && isAttrName k) := by
      intro k
      show dictGet ((childrenOf store gp).foldl attrStepT []) k = _
      rw [buildDict_get]
      have h0 : dictGet [] k = none := rfl
      rw [h0, Option.or_none]
    have hdir : ∀ k,
        k ∈ dirList ⟨gp, (childrenOf store gp).foldl attrStepT []⟩ ↔
        dictGet (⟨gp, (childrenOf store gp).foldl attrStepT []⟩ : GroupAttr).attrToChild k
          ≠ none := by
      intro k
      rw [ne_eq, dictGet_none_iff, not_not]
      exact Iff.rfl
    first
    | · intro k
        rw [hdir k, hget k]
        constructor
        · intro hne
          cases hf : (childrenOf store gp).reverse.find?
              (fun c => (c.pathList.getLast? == some k) && isAttrName k) with
          | none => exact absurd hf hne
          | some c =>
            have hmem := List.mem_of_find?_eq_some hf
            have hpred := List.find?_some hf
            simp only [Bool.and_eq_true, beq_iff_eq] at hpred
            exact ⟨c, List.mem_reverse.mp hmem, hpred.1, hpred.2⟩
        · rintro ⟨c, hcmem, hlast, hattr⟩
          intro hnone
          have hx : ∃ x ∈ (childrenOf store gp).reverse,
              ((x.pathList.getLast? == some k) && isAttrName k) = true :=
            ⟨c, List.mem_reverse.mpr hcmem, by simp [hlast, hattr]⟩
          have hsome := List.find?_isSome.mpr hx
          rw [hnone] at hsome
          simp at hsome
    | · intro name hname
        constructor
        · unfold getattrBody
          rw [if_neg hname, hdir name, not_not]
          cases hd : dictGet
              (⟨gp, (childrenOf store gp).foldl attrStepT []⟩ : GroupAttr).attrToChild
              name with
          | none => simp [hd]
          | some c =>
            simp only [hd]
            constructor
            · intro hcontra
              exfalso
              revert hcontra
              cases hmk : mkGroupAttr store c <;> simp [hmk]
            · intro hcontra
              exact absurd hcontra (by simp)
        · intro c hd
          have hd' := hd
          rw [hget name] at hd'
          have hmem := List.mem_of_find?_eq_some hd'
          have hpred := List.find?_some hd'
          simp only [Bool.and_eq_true, beq_iff_eq] at hpred
          have hcmem : c ∈ childrenOf store gp := List.mem_reverse.mp hmem
          have hcts : c.typeString = gp.typeString :=
            (childrenOf_mem_valid rfl rfl hl hcmem).1
          have hl2 : ∀ l ∈ queryLabels store c.typeString,
              validatePath l = .ok l ∧ l ≠ [] := by
            rw [hcts]; exact hl
          have hmkc := mkGroupAttr_ok store c hl2
          refine ⟨⟨_, hmkc, ?_⟩, hcmem, hpred.1, hpred.2⟩
          unfold getattrBody
          rw [if_neg hname, hd]
          simp only [hmkc]

/-- C7 witness: over the store `["a/b", "bad space"]` the navigator at the
root is built successfully, retains `"a"` but not `"bad space"`, and
looking up the unknown name `"x"` raises `AttributeError`. -/
theorem grouppath_c7_attr_witness :
    ((∀ l ∈ queryLabels [⟨str "a/b", none⟩, ⟨str "bad space", none⟩]
        (⟨[], [], none, true⟩ : GroupPath).typeString,
      validatePath l = .ok l ∧ l ≠ []) ∧ str "x" ≠ str "get_child") ∧
    (∃ ga, mkGroupAttr [⟨str "a/b", none⟩, ⟨str "bad space", none⟩]
          ⟨[], [], none, true⟩ = .ok ga ∧
      (∀ k, k ∈ dirList ga ↔
        ∃ c ∈ childrenOf [⟨str "a/b", none⟩, ⟨str "bad space", none⟩]
            ⟨[], [], none, true⟩,
          c.pathList.getLast? = some k ∧ isAttrName k = true) ∧
      ∀ name, name ≠ str "get_child" →
        ((getattrBody [⟨str "a/b", none⟩, ⟨str "bad space", none⟩] ga name
            = .attrError) ↔ name ∉ dirList ga) ∧
        ∀ c, dictGet ga.attrToChild name = some c →
          (∃ ga2, mkGroupAttr [⟨str "a/b", none⟩, ⟨str "bad space", none⟩] c
              = .ok ga2 ∧
            getattrBody [⟨str "a/b", none⟩, ⟨str "bad space", none⟩] ga name
              = .navigator ga2) ∧
          c ∈ childrenOf [⟨str "a/b", none⟩, ⟨str "bad space", none⟩]
              ⟨[], [], none, true⟩ ∧
            c.pathList.getLast? = some name ∧ isAttrName name = true) :=
  ⟨⟨by decide, by decide⟩,
    grouppath_c7_attr [⟨str "a/b", none⟩, ⟨str "bad space", none⟩]
      ⟨[], [], none, true⟩ (by decide)⟩

/-- C9: a full Python attribute access of the name `get_child` on a
`GroupAttr` never produces a value, whatever recursion depth is allowed:
the name resolves to no instance or class attribute, so `__getattr__` runs,
its special case returns `self.get_child`, and that expression re-enters
the same attribute access unboundedly (in CPython this manifests as a
`RecursionError`). -/
theorem grouppath_c9_get_child_diverges (store : List Record) (ga : GroupAttr)
    (fuel : Nat) : pyGetattr store ga fuel (str "get_child") = none := by
  induction fuel with
  | zero => rfl
  | succ n ih =>
    unfold pyGetattr
    have hb : gaBuiltinAttr (str "get_child") = false := by decide
    rw [if_neg (by rw [hb]; exact Bool.false_ne_true), if_pos rfl]
    exact ih

/-- C10: `path_list` returns a fresh copy of the internal `_path_list`
list object on every access: the returned address differs from the
internal one, mutating the returned list leaves the internal list
unreadably unchanged, and a subsequent `path_list` access still returns
the original contents.  (The path string is an immutable `str`, stored by
value, so it cannot be affected at all.) -/
theorem grouppath_c10_path_list_copy (h : ListHeap) (o : GroupPathObj) (v : List Str)
    (ho : o.listAddr < h.size) :
    (pathListProp h o).1 ≠ o.listAddr ∧
      heapRead (heapWrite (pathListProp h o).2 (pathListProp h o).1 v) o.listAddr
        = heapRead h o.listAddr ∧
      heapRead
          ((pathListProp (heapWrite (pathListProp h o).2 (pathListProp h o).1 v) o).2)
          ((pathListProp (heapWrite (pathListProp h o).2 (pathListProp h o).1 v) o).1)
        = heapRead h o.listAddr := by
  unfold pathListProp heapAlloc heapWrite heapRead
  simp only
  refine ⟨by omega, ?_, ?_⟩
  · simp [Nat.ne_of_lt ho]
  · simp [Nat.ne_of_lt ho]

/-- C10 witness: a one-object heap. -/
theorem grouppath_c10_path_list_copy_witness :
    ((⟨0⟩ : GroupPathObj).listAddr < (⟨1, fun _ => [str "a"]⟩ : ListHeap).size) ∧
    ((pathListProp ⟨1, fun _ => [str "a"]⟩ ⟨0⟩).1 ≠ (⟨0⟩ : GroupPathObj).listAddr ∧
      heapRead (heapWrite (pathListProp ⟨1, fun _ => [str "a"]⟩ ⟨0⟩).2
          (pathListProp ⟨1, fun _ => [str "a"]⟩ ⟨0⟩).1 []) (⟨0⟩ : GroupPathObj).listAddr
        = heapRead ⟨1, fun _ => [str "a"]⟩ (⟨0⟩ : GroupPathObj).listAddr ∧
      heapRead
          ((pathListProp (heapWrite (pathListProp ⟨1, fun _ => [str "a"]⟩ ⟨0⟩).2
              (pathListProp ⟨1, fun _ => [str "a"]⟩ ⟨0⟩).1 []) ⟨0⟩).2)
          ((pathListProp (heapWrite (pathListProp ⟨1, fun _ => [str "a"]⟩ ⟨0⟩).2
              (pathListProp ⟨1, fun _ => [str "a"]⟩ ⟨0⟩).1 []) ⟨0⟩).1)
        = heapRead ⟨1, fun _ => [str "a"]⟩ (⟨0⟩ : GroupPathObj).listAddr) :=
  ⟨by decide, grouppath_c10_path_list_copy ⟨1, fun _ => [str "a"]⟩ ⟨0⟩ [] (by decide)⟩
